import Mathlib

/-!
# The plan refiner of `optimizer/refiner.go`

A shallow embedding of the condition classifier (`conditionChecker`), the
index-range loop (`refiner.buildIndexRange`), the sort bypass
(`refiner.sortBypass`) and the visitor hooks (`refiner.Enter`,
`refiner.Leave`), followed by the properties proved about them.

Conventions of the embedding.

* A Go slice that the code compares with `nil` is an `Option (List α)`,
  `none` being the nil slice.  The condition lists are never compared with
  `nil`, so they are plain lists.
* A function whose Go body indexes a slice returns an `Option`; `none` is the
  run-time panic of an index out of range.
* Plan nodes are heap objects reached through pointers (`Ptr`); the heap is a
  total map from pointers to nodes, and the shape of the plan tree sits beside
  it as a forest of pointers.
-/

namespace Refiner

/-! ## Expressions (package `ast`, consumed through its interface) -/

/-- Case-insensitive identifier of package `model`: the original text `O` and
its lower-case form `L`, the one the refiner compares. -/
structure CIStr where
  O : String
  L : String
deriving DecidableEq, Repr

/-- Operator kinds of package `opcode`. -/
inductive Op
  | AndAnd | LeftShift | RightShift | OrOr | GE | LE | EQ | NE | LT | GT
  | Plus | Minus | And | Or | Mod | Xor | Div | Mul | Not | BitNeg | IntDiv
  | LogicXor | NullEQ
deriving DecidableEq, Repr

/-- A sub-query node; the refiner only asks whether an IN carries one. -/
structure SubqueryExpr where
  id : Nat
deriving DecidableEq, Repr

/-- Expression nodes.  `ColumnNameExpr table column` carries the resolved
`Refer.Table.Name` and `Refer.Column.Name`; `OtherExpr` stands for every node
type the refiner has no case for (function call, LIKE, BETWEEN, ...), with the
answer of its `IsStatic` method. -/
inductive ExprNode
  | ValueExpr (v : Int)
  | ColumnNameExpr (table : CIStr) (column : CIStr)
  | BinaryOperationExpr (op : Op) (l r : ExprNode)
  | ParenthesesExpr (e : ExprNode)
  | UnaryOperationExpr (op : Op) (v : ExprNode)
  | PatternInExpr (e : ExprNode) (list : List ExprNode) (sel : Option SubqueryExpr)
  | OtherExpr (kind : Nat) (static : Bool)
deriving Repr

mutual
/-- Modelled from the spec: `ast.ExprNode.IsStatic`, a method of the absent
package `ast` ("compile-time-static value", "literal/static-value detection"):
a literal value is static, a column reference is not, and a compound
expression is static when all of its operands are. -/
def IsStatic : ExprNode → Bool
  | .ValueExpr _ => true
  | .ColumnNameExpr _ _ => false
  | .BinaryOperationExpr _ l r => IsStatic l && IsStatic r
  | .ParenthesesExpr e => IsStatic e
  | .UnaryOperationExpr _ v => IsStatic v
  | .PatternInExpr e l sel => sel.isNone && IsStatic e && IsStaticList l
  | .OtherExpr _ s => s
/-- All expressions of a list are static. -/
def IsStaticList : List ExprNode → Bool
  | [] => true
  | v :: vs => IsStatic v && IsStaticList vs
end

/-! ## Index metadata (package `model`) -/

structure IndexColumn where
  Name : CIStr
deriving DecidableEq, Repr

structure IndexInfo where
  Table : CIStr
  Columns : List IndexColumn
deriving DecidableEq, Repr

/-! ## The condition classifier -/

/-- `conditionChecker.checkColumnExpr`: the expression is a column reference of
the index's table that names the index column at `columnOffset`.  The access
`c.idx.Columns[c.columnOffset]` panics (`none`) when the offset is out of
range. -/
def checkColumnExpr (idx : IndexInfo) (columnOffset : Nat) : ExprNode → Option Bool
  | .ColumnNameExpr table column =>
    if table.L ≠ idx.Table.L then some false
    else match idx.Columns[columnOffset]? with
      | none => none
      | some col => if column.L ≠ col.Name.L then some false else some true
  | _ => some false

mutual
/-- `conditionChecker.check`, with `checkBinaryOperation` inlined at the
binary case.  `&&` evaluates its right operand only when the left one is
true. -/
def check (idx : IndexInfo) (columnOffset : Nat) : ExprNode → Option Bool
  | .BinaryOperationExpr op l r =>
    match op with
    | .OrOr =>
      match check idx columnOffset l with
      | none => none
      | some false => some false
      | some true => check idx columnOffset r
    | .EQ | .NE | .GE | .GT | .LE | .LT =>
      if IsStatic l then checkColumnExpr idx columnOffset r
      else if IsStatic r then checkColumnExpr idx columnOffset l
      else some false
    | _ => some false
  | .ParenthesesExpr e => check idx columnOffset e
  | .UnaryOperationExpr op v =>
    if op ≠ .Not then some false else check idx columnOffset v
  | .PatternInExpr e list sel =>
    if sel.isSome then some false
    else match check idx columnOffset e with
      | none => none
      | some false => some false
      | some true => checkList idx columnOffset list
  | _ => some false
/-- The loop `for _, val := range x.List` of the IN case. -/
def checkList (idx : IndexInfo) (columnOffset : Nat) : List ExprNode → Option Bool
  | [] => some true
  | val :: rest =>
    match check idx columnOffset val with
    | none => none
    | some false => some false
    | some true => checkList idx columnOffset rest
end

/-- `conditionChecker.checkBinaryOperation` on the fields of a binary node. -/
def checkBinaryOperation (idx : IndexInfo) (columnOffset : Nat) (op : Op)
    (l r : ExprNode) : Option Bool :=
  check idx columnOffset (.BinaryOperationExpr op l r)

/-! ## Range builder (absent from the sources, taken as a parameter) -/

/-- One interval endpoint on a column. -/
structure rangePoint where
  value : Int
  excl : Bool
  start : Bool
deriving DecidableEq, Repr

/-- A composite range of an index scan. -/
structure IndexRange where
  LowVal : List Int
  LowExclude : Bool
  HighVal : List Int
  HighExclude : Bool
deriving DecidableEq, Repr

/-- The four methods of `rangeBuilder` that `buildIndexRange` calls.  Their
bodies are not part of the sources; every property below holds for arbitrary
ones. -/
structure rangeBuilder where
  build : ExprNode → Option (List rangePoint)
  intersection : Option (List rangePoint) → Option (List rangePoint) →
    Option (List rangePoint)
  buildIndexRanges : Option (List rangePoint) → Option (List IndexRange)
  appendIndexRanges : Option (List IndexRange) → Option (List rangePoint) →
    Option (List IndexRange)

/-! ## Plan nodes (package `plan`) -/

structure Filter where
  Conditions : List ExprNode

structure IndexScan where
  Index : IndexInfo
  Ranges : Option (List IndexRange)
  Desc : Bool
deriving DecidableEq

structure ByItem where
  Expr : ExprNode
  Desc : Bool

/-- The plan node `Sort` (the name is reserved in Lean). -/
structure SortNode where
  ByItems : List ByItem
  Bypass : Bool

/-- The row-count bound of a `Limit` node. -/
structure Limit where
  limit : Nat
deriving DecidableEq, Repr

/-- Modelled from the spec: `Limit.SetLimit`, a method of the absent package
`plan` ("`Limit`: mutable row-count bound, settable by the refiner"): it
stores the bound it is given. -/
def Limit.SetLimit (_x : Limit) (limit : Nat) : Limit := ⟨limit⟩

/-- A plan node; `Other` is any variant the refiner has no case for. -/
inductive Plan
  | Filter (x : Filter)
  | IndexScan (x : IndexScan)
  | SortNode (x : SortNode)
  | Limit (x : Limit)
  | Other (kind : Nat)

abbrev Ptr := Nat

abbrev Heap := Ptr → Plan

/-! ## The refiner -/

/-- State of the visitor: the active conditions, the unused field
`newConditions`, and the pointer to the last index scan entered. -/
structure refiner where
  conditions : List ExprNode
  newConditions : List ExprNode
  indexScan : Option Ptr

/-- The inner loop of `buildIndexRange` over `r.conditions` for one column:
pushable conditions are folded into `rangePoints`, the others appended to
`newConditions`. -/
def condLoop (rb : rangeBuilder) (idx : IndexInfo) (i : Nat) :
    List ExprNode → Option (List rangePoint) → List ExprNode →
    Option (Option (List rangePoint) × List ExprNode)
  | [], rangePoints, newConditions => some (rangePoints, newConditions)
  | cond :: rest, rangePoints, newConditions =>
    match check idx i cond with
    | none => none
    | some true =>
      condLoop rb idx i rest (rb.intersection rangePoints (rb.build cond)) newConditions
    | some false => condLoop rb idx i rest rangePoints (newConditions ++ [cond])

/-- The loop `for i := 0; i < len(p.Index.Columns); i++` of `buildIndexRange`;
the first argument counts the iterations that remain, `len - i`. -/
def columnLoop (rb : rangeBuilder) (idx : IndexInfo) :
    Nat → Nat → List ExprNode → Option (List IndexRange) →
    Option (List ExprNode × Option (List IndexRange))
  | 0, _, conditions, ranges => some (conditions, ranges)
  | k + 1, i, conditions, ranges =>
    match condLoop rb idx i conditions none [] with
    | none => none
    | some (none, newConditions) => some (newConditions, ranges)
    | some (some rangePoints, newConditions) =>
      columnLoop rb idx k (i + 1) newConditions
        (if i = 0 then rb.buildIndexRanges (some rangePoints)
         else rb.appendIndexRanges ranges (some rangePoints))

/-- `refiner.buildIndexRange`. -/
def buildIndexRange (rb : rangeBuilder) (r : refiner) (p : IndexScan) :
    Option (refiner × IndexScan) :=
  match columnLoop rb p.Index p.Index.Columns.length 0 r.conditions p.Ranges with
  | none => none
  | some (conditions, ranges) =>
    some ({ r with conditions := conditions }, { p with Ranges := ranges })

/-- The state of the column loop at the start of every iteration it runs:
column offset, active conditions, ranges.  It follows the control flow of
`columnLoop` and is used to say which columns were processed. -/
def columnTrace (rb : rangeBuilder) (idx : IndexInfo) :
    Nat → Nat → List ExprNode → Option (List IndexRange) →
    List (Nat × List ExprNode × Option (List IndexRange))
  | 0, _, _, _ => []
  | k + 1, i, conditions, ranges =>
    (i, conditions, ranges) ::
      match condLoop rb idx i conditions none [] with
      | some (some rangePoints, newConditions) =>
        columnTrace rb idx k (i + 1) newConditions
          (if i = 0 then rb.buildIndexRanges (some rangePoints)
           else rb.appendIndexRanges ranges (some rangePoints))
      | _ => []

/-- The iterations of the column loop run by `buildIndexRange r p`. -/
def processed (rb : rangeBuilder) (r : refiner) (p : IndexScan) :
    List (Nat × List ExprNode × Option (List IndexRange)) :=
  columnTrace rb p.Index p.Index.Columns.length 0 r.conditions p.Ranges

/-- The loop over `p.ByItems` of `sortBypass`.  The outer `none` is the panic
of `idx.Columns[i]`, `some none` an early `return`, `some (some (desc, asc))`
the flags when the loop runs to its end. -/
def byItemsLoop (idx : IndexInfo) :
    List ByItem → Nat → Bool → Bool → Option (Option (Bool × Bool))
  | [], _, desc, asc => some (some (desc, asc))
  | val :: rest, i, desc, asc =>
    let desc1 := if val.Desc then true else desc
    let asc1 := if val.Desc then asc else true
    match val.Expr with
    | .ColumnNameExpr table column =>
      if idx.Table.L ≠ table.L then some none
      else match idx.Columns[i]? with
        | none => none
        | some indexColumn =>
          if indexColumn.Name.L ≠ column.L then some none
          else byItemsLoop idx rest (i + 1) desc1 asc1
    | _ => some none

/-- `refiner.sortBypass`.  `r.indexScan` is a pointer: the function receives
the node it points to (`none` for the nil pointer) and returns that node and
the sort node as the call leaves them. -/
def sortBypass (indexScan : Option IndexScan) (p : SortNode) :
    Option (Option IndexScan × SortNode) :=
  match indexScan with
  | none => some (none, p)
  | some scan =>
    if p.ByItems.length > scan.Index.Columns.length then some (some scan, p)
    else match byItemsLoop scan.Index p.ByItems 0 false false with
      | none => none
      | some none => some (some scan, p)
      | some (some (desc, asc)) =>
        if desc && asc then some (some scan, p)
        else some (some (if desc then { scan with Desc := true } else scan),
                   { p with Bypass := true })

/-- What a visitor hook returns, `(plan.Plan, bool)`, and the state it
leaves. -/
structure Visited where
  out : Ptr
  flag : Bool
  r : refiner
  heap : Heap

/-- `refiner.Enter`. -/
def Enter (rb : rangeBuilder) (r : refiner) (h : Heap) (p : Ptr) : Option Visited :=
  match h p with
  | .Filter x => some ⟨p, false, { r with conditions := x.Conditions }, h⟩
  | .IndexScan x =>
    match buildIndexRange rb { r with indexScan := some p } x with
    | none => none
    | some (r1, x1) => some ⟨p, false, r1, Function.update h p (.IndexScan x1)⟩
  | _ => some ⟨p, false, r, h⟩

/-- The heap after `sortBypass` ran on the sort node at `p`: the node
`r.indexScan` points to and the sort node are written back. -/
def writeSort (h : Heap) (indexScan : Option Ptr) (scan : Option IndexScan)
    (p : Ptr) (x : SortNode) : Heap :=
  let h1 := match indexScan, scan with
    | some q, some s => Function.update h q (.IndexScan s)
    | _, _ => h
  Function.update h1 p (.SortNode x)

/-- The node `r.indexScan` points to; the field only ever holds index
scans. -/
def deref (h : Heap) : Option Ptr → Option IndexScan
  | none => none
  | some q => match h q with
    | .IndexScan s => some s
    | _ => none

/-- `refiner.Leave`. -/
def Leave (rb : rangeBuilder) (r : refiner) (h : Heap) (p : Ptr) : Option Visited :=
  match h p with
  | .IndexScan x =>
    match buildIndexRange rb r x with
    | none => none
    | some (r1, x1) => some ⟨p, true, r1, Function.update h p (.IndexScan x1)⟩
  | .Filter x =>
    some ⟨p, true, r, Function.update h p (.Filter { x with Conditions := r.conditions })⟩
  | .SortNode x =>
    match sortBypass (deref h r.indexScan) x with
    | none => none
    | some (scan, x1) => some ⟨p, true, r, writeSort h r.indexScan scan p x1⟩
  | .Limit x => some ⟨p, true, r, Function.update h p (.Limit (x.SetLimit 0))⟩
  | .Other _ => some ⟨p, true, r, h⟩

/-- The shape of plan trees: a node with its children, followed by its
right siblings. -/
inductive Forest
  | nil
  | cons (p : Ptr) (children : Forest) (rest : Forest)

/-- Modelled from the spec: `Plan.Accept`, a method of the absent package
`plan` ("a depth-first visit exposing pre-order (Enter) and post-order (Leave)
hooks per node, each hook allowed to replace the node and/or signal do not
descend into children"): Enter, then the children unless Enter said to skip
them, then Leave on the node Enter returned, then the siblings. -/
def Accept (rb : rangeBuilder) : Forest → refiner → Heap → Option (refiner × Heap)
  | .nil, r, h => some (r, h)
  | .cons p children rest, r, h =>
    match Enter rb r h p with
    | none => none
    | some v =>
      match (if v.flag then some (v.r, v.heap) else Accept rb children v.r v.heap) with
      | none => none
      | some (r1, h1) =>
        match Leave rb r1 h1 v.out with
        | none => none
        | some w => Accept rb rest w.r w.heap

/-- `refine`: a fresh refiner visits the plan rooted at `p`. -/
def refine (rb : rangeBuilder) (h : Heap) (p : Ptr) (children : Forest) : Option Heap :=
  match Accept rb (.cons p children .nil) ⟨[], [], none⟩ h with
  | none => none
  | some (_, h1) => some h1

/-! ## Concrete plans used as witnesses -/

/-- An identifier already in lower case. -/
def ci (s : String) : CIStr := ⟨s, s⟩

/-- Column `name` of table `t`. -/
def col (name : String) : ExprNode := .ColumnNameExpr (ci "t") (ci name)

/-- The comparison `name = v`. -/
def colEq (name : String) (v : Int) : ExprNode :=
  .BinaryOperationExpr .EQ (col name) (.ValueExpr v)

/-- Index on `(a, b)` of table `t`. -/
def idxAB : IndexInfo := ⟨ci "t", [⟨ci "a"⟩, ⟨ci "b"⟩]⟩

/-- Index on `(x)` of table `t`. -/
def idxX : IndexInfo := ⟨ci "t", [⟨ci "x"⟩]⟩

/-- An ascending scan of the index on `(a, b)` without ranges. -/
def scanAB : IndexScan := ⟨idxAB, none, false⟩

/-- The predicate `x IN (3, 1, 2)`. -/
def xIn312 : ExprNode :=
  .PatternInExpr (col "x") [.ValueExpr 3, .ValueExpr 1, .ValueExpr 2] none

/-- A range builder for the concrete runs: one point per pushable predicate,
intersection by concatenation, one range per point. -/
def rbDemo : rangeBuilder where
  build := fun _ => some [⟨0, false, true⟩]
  intersection := fun a b =>
    match a, b with
    | none, b => b
    | a, none => a
    | some xs, some ys => some (xs ++ ys)
  buildIndexRanges := fun pts => pts.map (List.map fun pt => ⟨[pt.value], false, [pt.value], false⟩)
  appendIndexRanges := fun rs pts =>
    match rs, pts with
    | some xs, some ys => some (xs ++ ys.map fun pt => ⟨[pt.value], false, [pt.value], false⟩)
    | rs, _ => rs

/-! ## Specification-side predicates -/

/-- The expression is a column reference whose table is the index's table and
whose column is the index column at `columnOffset`. -/
def matchesIndexColumn (idx : IndexInfo) (columnOffset : Nat) (e : ExprNode) : Prop :=
  ∃ table column indexColumn, e = .ColumnNameExpr table column ∧
    table.L = idx.Table.L ∧ idx.Columns[columnOffset]? = some indexColumn ∧
    column.L = indexColumn.Name.L

/-- One of the six comparison operators `=, <>, >=, >, <=, <`. -/
def Op.isComparison (op : Op) : Prop :=
  op = .EQ ∨ op = .NE ∨ op = .GE ∨ op = .GT ∨ op = .LE ∨ op = .LT

/-- The sort key is a plain column reference whose table is the index's table
and whose column is the index column at position `i`. -/
def keyMatches (idx : IndexInfo) (i : Nat) (val : ByItem) : Prop :=
  ∃ table column indexColumn, val.Expr = .ColumnNameExpr table column ∧
    idx.Table.L = table.L ∧ idx.Columns[i]? = some indexColumn ∧
    indexColumn.Name.L = column.L

/-- The keys are a mix of ascending and descending ones. -/
def mixedDirections (items : List ByItem) : Prop :=
  (∃ v ∈ items, v.Desc = true) ∧ (∃ v ∈ items, v.Desc = false)

/-- The full eligibility condition of the sort bypass: an index scan has been
recorded, there are no more sort keys than index columns, every key is a
column reference of the index's table naming the index column at its own
position, and the keys are not a mix of directions. -/
def eligible (indexScan : Option IndexScan) (p : SortNode) : Prop :=
  ∃ scan, indexScan = some scan ∧
    p.ByItems.length ≤ scan.Index.Columns.length ∧
    (∀ k (hk : k < p.ByItems.length), keyMatches scan.Index k (p.ByItems.get ⟨k, hk⟩)) ∧
    ¬ mixedDirections p.ByItems

/-- What the refiner never changes in a node: its variant and, for an index
scan, the index. -/
inductive Shape
  | filter
  | scan (idx : IndexInfo)
  | other

/-- The variant of a node, with the index of an index scan. -/
def Plan.shape : Plan → Shape
  | .Filter _ => .filter
  | .IndexScan x => .scan x.Index
  | _ => .other

/-- The node is a `Filter`. -/
def Plan.isFilter : Plan → Bool
  | .Filter _ => true
  | _ => false

/-- The pointers of a forest in the order the traversal enters them. -/
def Forest.ptrs : Forest → List Ptr
  | .nil => []
  | .cons p children rest => p :: (children.ptrs ++ rest.ptrs)

/-- Every node of a forest with the forest of its children. -/
def Forest.subtrees : Forest → List (Ptr × Forest)
  | .nil => []
  | .cons p children rest => (p, children) :: (children.subtrees ++ rest.subtrees)

/-- Every node of the heap has the shape the map `sh` gives it. -/
def Shaped (sh : Ptr → Shape) (h : Heap) : Prop := ∀ q, (h q).shape = sh q

/-- The list `cs1` is an order-preserving sub-list of `cs`, and each condition
of `cs` missing from it was classified pushable at some column of an index
scan among the nodes `qs`. -/
def Consumed (sh : Ptr → Shape) (qs : List Ptr) (cs cs1 : List ExprNode) : Prop :=
  cs1.Sublist cs ∧
    ∀ c ∈ cs, c ∉ cs1 → ∃ q ∈ qs, ∃ idx, sh q = .scan idx ∧
      ∃ i, i < idx.Columns.length ∧ check idx i c = some true

/-! ## Further definitions used by the proofs and the witnesses -/

/-- The conditions the inner loop keeps for column `i`: those the classifier
does not accept. -/
def leftover (idx : IndexInfo) (i : Nat) (conds : List ExprNode) : List ExprNode :=
  conds.filter (fun c => check idx i c != some true)

/-- The sort `ORDER BY a ASC, b DESC`. -/
def sortAscDesc : SortNode := ⟨[⟨col "a", false⟩, ⟨col "b", true⟩], false⟩

/-- The sort `ORDER BY a, b`. -/
def sortAscAsc : SortNode := ⟨[⟨col "a", false⟩, ⟨col "b", false⟩], false⟩

/-- The sort `ORDER BY a DESC, b DESC`. -/
def sortDescDesc : SortNode := ⟨[⟨col "a", true⟩, ⟨col "b", true⟩], false⟩

/-- The plan `Filter [c = 1]` over `Filter [d = 2]` over a scan of the index
on `(a, b)`: nodes 0, 1 and 2. -/
def heapNested : Heap := fun q =>
  match q with
  | 0 => .Filter ⟨[colEq "c" 1]⟩
  | 1 => .Filter ⟨[colEq "d" 2]⟩
  | 2 => .IndexScan scanAB
  | _ => .Other 0

/-- The plan `Filter [c = 1]` over `Filter [a = 1, d = 2]` over a scan of the
index on `(a, b)`: nodes 0, 1 and 2. -/
def heapNestedScan : Heap := fun q =>
  match q with
  | 0 => .Filter ⟨[colEq "c" 1]⟩
  | 1 => .Filter ⟨[colEq "a" 1, colEq "d" 2]⟩
  | 2 => .IndexScan scanAB
  | _ => .Other 0

/-- The plan `Limit n` over a scan of the index on `(a, b)`: nodes 0 and 1. -/
def heapLimit (n : Nat) : Heap := fun q =>
  match q with
  | 0 => .Limit ⟨n⟩
  | 1 => .IndexScan scanAB
  | _ => .Other 0

/-! ## The cost hook (`optimizer/plan/cost.go`) -/

/-- `costEstimator`: a struct without fields. -/
structure costEstimator where
deriving DecidableEq

/-- What a hook of the cost estimator returns, `(Plan, bool)`, with the state
it leaves. -/
structure CostVisited where
  out : Ptr
  flag : Bool
  c : costEstimator
  heap : Heap

/-- `costEstimator.indexScan`: the body is empty. -/
def costEstimator.indexScan (_c : costEstimator) (h : Heap) (_v : Ptr) : Heap := h

/-- `costEstimator.Enter`. -/
def costEstimator.Enter (c : costEstimator) (h : Heap) (p : Ptr) : CostVisited :=
  ⟨p, false, c, h⟩

/-- `costEstimator.Leave`. -/
def costEstimator.Leave (c : costEstimator) (h : Heap) (p : Ptr) : CostVisited :=
  match h p with
  | .IndexScan _ => ⟨p, true, c, c.indexScan h p⟩
  | _ => ⟨p, true, c, h⟩

/-- `EstimateCost`: the constant `0` of type `float64`, here a rational. -/
def EstimateCost (_h : Heap) (_p : Ptr) : ℚ := 0

/-- The predicate `x = 1 OR y = 2`. -/
def xEq1OrYEq2 : ExprNode :=
  .BinaryOperationExpr .OrOr (colEq "x" 1) (colEq "y" 2)

/-- A scan of an index without columns. -/
def scanNoColumns : IndexScan := ⟨⟨ci "t", []⟩, none, false⟩

/-- The heap whose node 0 is the scan of an index without columns. -/
def heapNoColumns : Heap := fun q =>
  match q with
  | 0 => .IndexScan scanNoColumns
  | _ => .Other 0

/-- The conditions the inner loop folds into the range points for column `i`:
those the classifier accepts, in order. -/
def pushed (idx : IndexInfo) (i : Nat) (conds : List ExprNode) : List ExprNode :=
  conds.filter (fun c => check idx i c == some true)

/-- The range points the inner loop accumulates over the pushable conditions:
`rb.intersection` applied from the left, starting from `acc`, to `rb.build`
of each. -/
def foldPoints (rb : rangeBuilder) (conds : List ExprNode)
    (acc : Option (List rangePoint)) : Option (List rangePoint) :=
  conds.foldl (fun a c => rb.intersection a (rb.build c)) acc

/-- The ranges the column loop assigns at column `i` from non-nil range
points. -/
def reassigned (rb : rangeBuilder) (i : Nat) (ranges : Option (List IndexRange))
    (rangePoints : List rangePoint) : Option (List IndexRange) :=
  if i = 0 then rb.buildIndexRanges (some rangePoints)
  else rb.appendIndexRanges ranges (some rangePoints)

/-- A scan of the index on `(x)` without ranges. -/
def scanX : IndexScan := ⟨idxX, none, false⟩

/-- The sort `ORDER BY a DESC`. -/
def sortADesc : SortNode := ⟨[⟨col "a", true⟩], false⟩

/-- A node with two children: a scan of the index on `(a, b)` (node 1) and
the sort `ORDER BY a DESC` (node 2) over a source that is no index scan
(node 3); node 0 is the parent. -/
def heapSibling : Heap := fun q =>
  match q with
  | 1 => .IndexScan scanAB
  | 2 => .SortNode sortADesc
  | _ => .Other 0

/-- The heap `h1` has every sort node of `h` as it is in `h`, and the same
index scans as `h`. -/
def Keeps (h h1 : Heap) : Prop :=
  ∀ q, (∀ x, h q = .SortNode x → h1 q = .SortNode x) ∧
    (∀ s, h q = .IndexScan s ↔ h1 q = .IndexScan s)

/-- The active conditions `buildIndexRange` leaves for an index, as a function
of the conditions it starts with (the ranges play no part in them). -/
def condsAfter (rb : rangeBuilder) (idx : IndexInfo) (conds : List ExprNode) :
    List ExprNode :=
  match columnLoop rb idx idx.Columns.length 0 conds none with
  | some (conds1, _) => conds1
  | none => conds

/-- No condition of the list is pushable to the first column of the index. -/
def Settled (idx : IndexInfo) (conds : List ExprNode) : Prop :=
  0 < idx.Columns.length → ∀ c ∈ conds, check idx 0 c ≠ some true

/-- What visiting a node of the given shape, on entering or on leaving, makes
of the active conditions when the node is no `Filter`. -/
def shapeConds (rb : rangeBuilder) : Shape → List ExprNode → List ExprNode
  | .scan idx, conds => condsAfter rb idx conds
  | _, conds => conds

/-- The active conditions after the traversal of a forest without `Filter`
nodes. -/
def forestConds (rb : rangeBuilder) (sh : Ptr → Shape) :
    Forest → List ExprNode → List ExprNode
  | .nil, conds => conds
  | .cons p children rest, conds =>
    forestConds rb sh rest
      (shapeConds rb (sh p) (forestConds rb sh children (shapeConds rb (sh p) conds)))

/-- The list is settled for the index of every index scan among `qs`. -/
def SettledFor (sh : Ptr → Shape) (qs : List Ptr) (conds : List ExprNode) : Prop :=
  ∀ q ∈ qs, ∀ idx, sh q = .scan idx → Settled idx conds

/-- The node is no index scan. -/
def NonScan (sh : Ptr → Shape) (q : Ptr) : Prop := ∀ idx, sh q ≠ .scan idx

/-- The recorded scan after entering a node. -/
def enterScan (s : Shape) (p : Ptr) (indexScan : Option Ptr) : Option Ptr :=
  match s with
  | .scan _ => some p
  | _ => indexScan

/-- The node `Leave` writes for a node that is no index scan: a `Filter` gets
the active conditions, a sort node what `sortBypass` makes of it, a `Limit`
the bound 0. -/
def leaveNode (node : Plan) (conds : List ExprNode) (scan : Option IndexScan) : Plan :=
  match node with
  | .Filter _ => .Filter ⟨conds⟩
  | .SortNode x =>
    match sortBypass scan x with
    | some (_, x1) => .SortNode x1
    | none => .SortNode x
  | .Limit x => .Limit (x.SetLimit 0)
  | n => n

/-- Modelled from the spec: the behaviour of `rangeBuilder.build` and
`rangeBuilder.intersection`, whose bodies are absent from the sources, as far
as `buildIndexRange` depends on it. `intersection` run "across all pushable
predicates for that column" starts from the nil slice, which constrains
nothing: intersecting it with a sequence gives that sequence. `build`
"produces its interval representation" for a predicate known pushable: a
sequence, not the nil slice. And for an intersection without overlap "an empty
result is a structurally valid state, not an error": the intersection of two
sequences is a sequence, possibly empty, not the nil slice. -/
def rangeBuilder.Lawful (rb : rangeBuilder) : Prop :=
  (∀ x, rb.intersection none x = x) ∧
  (∀ idx i c, check idx i c = some true → rb.build c ≠ none) ∧
  (∀ a b, rb.intersection (some a) (some b) ≠ none)

/-- A range builder for equalities with a literal: `column = v` builds the
interval `[v, v]` as its start and end point, the intersection keeps the
points of the first sequence that are in the second, so the common values,
and an empty intersection is the empty sequence. Predicates of another form
are given the empty sequence; the runs below use equalities only. -/
def rbEq : rangeBuilder where
  build := fun e =>
    match e with
    | .BinaryOperationExpr .EQ _ (.ValueExpr v) => some [⟨v, false, true⟩, ⟨v, false, false⟩]
    | _ => some []
  intersection := fun a b =>
    match a, b with
    | none, b => b
    | some xs, none => some xs
    | some xs, some ys => some (xs.filter (fun pt => decide (pt ∈ ys)))
  buildIndexRanges := fun pts =>
    pts.map fun l => (l.filter (fun pt => pt.start)).map
      fun pt => ⟨[pt.value], false, [pt.value], false⟩
  appendIndexRanges := fun rs pts =>
    match rs, pts with
    | some xs, some ys =>
      some (xs.flatMap fun rg => (ys.filter (fun pt => pt.start)).map
        fun pt => ⟨rg.LowVal ++ [pt.value], false, rg.HighVal ++ [pt.value], false⟩)
    | rs, _ => rs

/-- Every node of a forest with the forest of its children and the nodes of
the forest that the traversal enters before it. -/
def Forest.visits : Forest → List (Ptr × Forest × List Ptr)
  | .nil => []
  | .cons p children rest =>
    (p, children, []) ::
      (children.visits.map (fun e => (e.1, e.2.1, p :: e.2.2)) ++
        rest.visits.map (fun e => (e.1, e.2.1, p :: (children.ptrs ++ e.2.2))))

/-- The index scan entered last among the nodes `qs`, in the order they are
entered, or `init` when none of them is an index scan. -/
def lastScan (sh : Ptr → Shape) (init : Option Ptr) (qs : List Ptr) : Option Ptr :=
  qs.foldl (fun acc q => enterScan (sh q) q acc) init

/-- The state in which `Leave` is called on each node during the traversal of
a forest: the node, the refiner and the heap just before the call. It follows
the control flow of `Accept`. -/
def leaveTrace (rb : rangeBuilder) : Forest → refiner → Heap → List (Ptr × refiner × Heap)
  | .nil, _, _ => []
  | .cons p children rest, r, h =>
    match Enter rb r h p with
    | none => []
    | some v =>
      (if v.flag then [] else leaveTrace rb children v.r v.heap) ++
        match (if v.flag then some (v.r, v.heap) else Accept rb children v.r v.heap) with
        | none => []
        | some (r1, h1) =>
          (v.out, r1, h1) ::
            match Leave rb r1 h1 v.out with
            | none => []
            | some w => leaveTrace rb rest w.r w.heap

/-! ## The classifier -/

theorem checkColumnExpr_eq_true_iff (idx : IndexInfo) (off : Nat) (e : ExprNode) :
    checkColumnExpr idx off e = some true ↔ matchesIndexColumn idx off e := by
  unfold matchesIndexColumn
  cases e with
  | ColumnNameExpr t c =>
    unfold checkColumnExpr
    by_cases ht : t.L = idx.Table.L
    · cases hc : idx.Columns[off]? with
      | none => simp [ht]
      | some cl =>
        by_cases hn : c.L = cl.Name.L
        · simp only [ht, hn, ne_eq, not_true_eq_false, if_false, true_iff]
          exact ⟨t, c, cl, rfl, ht, rfl, hn⟩
        · simp [ht, hn]
    · simp [ht]
  | _ => simp [checkColumnExpr]

theorem matchesIndexColumn_not_static {idx : IndexInfo} {off : Nat} {e : ExprNode}
    (h : matchesIndexColumn idx off e) : IsStatic e = false := by
  obtain ⟨t, c, _, rfl, _⟩ := h
  simp [IsStatic]

theorem checkColumnExpr_total (idx : IndexInfo) (off : Nat)
    (hoff : off < idx.Columns.length) (e : ExprNode) :
    ∃ b, checkColumnExpr idx off e = some b := by
  cases e with
  | ColumnNameExpr t c =>
    unfold checkColumnExpr
    rw [List.getElem?_eq_getElem hoff]
    by_cases ht : t.L = idx.Table.L
    · by_cases hn : c.L = (idx.Columns[off]).Name.L
      · exact ⟨true, by simp [ht, hn]⟩
      · exact ⟨false, by simp [ht, hn]⟩
    · exact ⟨false, by simp [ht]⟩
  | _ => exact ⟨false, by simp [checkColumnExpr]⟩

theorem check_comparison (idx : IndexInfo) (off : Nat) (op : Op) (l r : ExprNode)
    (hop : op.isComparison) :
    check idx off (.BinaryOperationExpr op l r) =
      if IsStatic l then checkColumnExpr idx off r
      else if IsStatic r then checkColumnExpr idx off l
      else some false := by
  rcases hop with h | h | h | h | h | h <;> subst h <;> simp [check]

/-- C9: for a binary expression with one of the six comparison operators, the
classifier answers true exactly when one operand is static, the other is not,
and that other operand is a column reference of the index's table naming the
index column at the offset. -/
theorem check_comparison_iff (idx : IndexInfo) (columnOffset : Nat) (op : Op)
    (l r : ExprNode) (hop : op.isComparison) :
    check idx columnOffset (.BinaryOperationExpr op l r) = some true ↔
      (IsStatic l = true ∧ IsStatic r = false ∧ matchesIndexColumn idx columnOffset r) ∨
      (IsStatic r = true ∧ IsStatic l = false ∧ matchesIndexColumn idx columnOffset l) := by
  rw [check_comparison idx columnOffset op l r hop]
  by_cases hl : IsStatic l = true
  · simp only [hl, if_true, checkColumnExpr_eq_true_iff]
    constructor
    · intro h
      exact Or.inl ⟨trivial, matchesIndexColumn_not_static h, h⟩
    · rintro (⟨-, -, h⟩ | ⟨-, h, -⟩)
      · exact h
      · simp at h
  · have hl2 : IsStatic l = false := by simpa using hl
    by_cases hr : IsStatic r = true
    · simp [hl2, hr, checkColumnExpr_eq_true_iff]
    · have hr2 : IsStatic r = false := by simpa using hr
      simp [hl2, hr2]

/-- Witness of C9: `a = 1` against column 0 of the index on `(a, b)`. -/
theorem check_comparison_iff_witness :
    check idxAB 0 (colEq "a" 1) = some true ↔
      (IsStatic (col "a") = true ∧ IsStatic (.ValueExpr 1) = false ∧
        matchesIndexColumn idxAB 0 (.ValueExpr 1)) ∨
      (IsStatic (.ValueExpr 1) = true ∧ IsStatic (col "a") = false ∧
        matchesIndexColumn idxAB 0 (col "a")) :=
  check_comparison_iff idxAB 0 .EQ (col "a") (.ValueExpr 1) (Or.inl rfl)

theorem check_in_column_probe (idx : IndexInfo) (off : Nat) (table column : CIStr)
    (list : List ExprNode) (sel : Option SubqueryExpr) :
    check idx off (.PatternInExpr (.ColumnNameExpr table column) list sel) = some false := by
  cases sel <;> simp [check]

/-- C10: the classifier rejects `x IN (3, 1, 2)` for the index on `(x)`, as it
rejects every IN-list whose probe is a column reference; `buildIndexRange`
then leaves the predicate among the conditions and builds no range. -/
theorem check_in_list_rejected :
    check idxX 0 xIn312 = some false ∧
    (∀ idx off table column list sel,
      check idx off (.PatternInExpr (.ColumnNameExpr table column) list sel) = some false) ∧
    buildIndexRange rbDemo ⟨[xIn312], [], none⟩ ⟨idxX, none, false⟩ =
      some (⟨[xIn312], [], none⟩, ⟨idxX, none, false⟩) :=
  ⟨by decide, check_in_column_probe, by rfl⟩

mutual
/-- With the offset inside the index columns the classifier never indexes out
of range: it returns a boolean for every expression. -/
theorem check_total (idx : IndexInfo) (off : Nat) (hoff : off < idx.Columns.length) :
    ∀ e : ExprNode, ∃ b, check idx off e = some b
  | .ValueExpr _ => ⟨false, by simp [check]⟩
  | .ColumnNameExpr _ _ => ⟨false, by simp [check]⟩
  | .OtherExpr _ _ => ⟨false, by simp [check]⟩
  | .ParenthesesExpr e => by
    obtain ⟨b, hb⟩ := check_total idx off hoff e
    exact ⟨b, by simp [check, hb]⟩
  | .UnaryOperationExpr op v => by
    obtain ⟨b, hb⟩ := check_total idx off hoff v
    by_cases hop : op = .Not
    · exact ⟨b, by simp [check, hop, hb]⟩
    · exact ⟨false, by simp [check, hop]⟩
  | .PatternInExpr e list sel => by
    obtain ⟨b, hb⟩ := check_total idx off hoff e
    obtain ⟨bl, hbl⟩ := checkList_total idx off hoff list
    cases sel with
    | some q => exact ⟨false, by simp [check]⟩
    | none =>
      cases b with
      | false => exact ⟨false, by simp [check, hb]⟩
      | true => exact ⟨bl, by simp [check, hb, hbl]⟩
  | .BinaryOperationExpr op l r => by
    obtain ⟨bl, hbl⟩ := check_total idx off hoff l
    obtain ⟨br, hbr⟩ := check_total idx off hoff r
    obtain ⟨cl, hcl⟩ := checkColumnExpr_total idx off hoff l
    obtain ⟨cr, hcr⟩ := checkColumnExpr_total idx off hoff r
    by_cases hor : op = .OrOr
    · subst hor
      cases bl with
      | false => exact ⟨false, by simp [check, hbl]⟩
      | true => exact ⟨br, by simp [check, hbl, hbr]⟩
    · by_cases hcmp : op.isComparison
      · rw [check_comparison idx off op l r hcmp, hcl, hcr]
        split
        · exact ⟨_, rfl⟩
        · split <;> exact ⟨_, rfl⟩
      · refine ⟨false, ?_⟩
        unfold Op.isComparison at hcmp
        cases op <;> simp_all [check]
/-- The loop over the elements of an IN-list returns a boolean as well. -/
theorem checkList_total (idx : IndexInfo) (off : Nat) (hoff : off < idx.Columns.length) :
    ∀ l : List ExprNode, ∃ b, checkList idx off l = some b
  | [] => ⟨true, by simp [checkList]⟩
  | v :: vs => by
    obtain ⟨b, hb⟩ := check_total idx off hoff v
    obtain ⟨bs, hbs⟩ := checkList_total idx off hoff vs
    cases b with
    | false => exact ⟨false, by simp [checkList, hb]⟩
    | true => exact ⟨bs, by simp [checkList, hb, hbs]⟩
end

/-! ## The index-range loop -/

theorem leftover_sublist (idx : IndexInfo) (i : Nat) (conds : List ExprNode) :
    (leftover idx i conds).Sublist conds :=
  List.filter_sublist _

theorem mem_leftover {idx : IndexInfo} {i : Nat} {conds : List ExprNode} {c : ExprNode} :
    c ∈ leftover idx i conds ↔ c ∈ conds ∧ check idx i c ≠ some true := by
  simp [leftover, List.mem_filter]

theorem leftover_eq_self {idx : IndexInfo} {i : Nat} {conds : List ExprNode}
    (h : ∀ c ∈ conds, check idx i c ≠ some true) : leftover idx i conds = conds := by
  unfold leftover
  rw [List.filter_eq_self]
  intro c hc
  simpa using h c hc

/-- The inner loop returns for every condition list when the column offset is
inside the index; it keeps exactly the conditions that are not pushable, in
order, and yields nil range points when none is pushable. -/
theorem condLoop_spec (rb : rangeBuilder) (idx : IndexInfo) (i : Nat)
    (hi : i < idx.Columns.length) :
    ∀ (conds : List ExprNode) (rp : Option (List rangePoint)) (nc : List ExprNode),
      ∃ rp1, condLoop rb idx i conds rp nc = some (rp1, nc ++ leftover idx i conds) ∧
        ((∀ c ∈ conds, check idx i c ≠ some true) → rp1 = rp)
  | [], rp, nc => ⟨rp, by simp [condLoop, leftover], fun _ => rfl⟩
  | c :: rest, rp, nc => by
    obtain ⟨b, hb⟩ := check_total idx i hi c
    cases b with
    | true =>
      obtain ⟨rp1, h1, _⟩ := condLoop_spec rb idx i hi rest
        (rb.intersection rp (rb.build c)) nc
      refine ⟨rp1, ?_, ?_⟩
      · simp only [condLoop, hb, h1]
        simp [leftover, List.filter_cons, hb]
      · intro hall
        exact absurd hb (hall c (List.mem_cons_self _ _))
    | false =>
      obtain ⟨rp1, h1, h2⟩ := condLoop_spec rb idx i hi rest rp (nc ++ [c])
      refine ⟨rp1, ?_, ?_⟩
      · simp only [condLoop, hb, h1]
        simp [leftover, List.filter_cons, hb]
      · intro hall
        exact h2 (fun d hd => hall d (List.mem_cons_of_mem _ hd))

theorem condLoop_start (rb : rangeBuilder) (idx : IndexInfo) (i : Nat)
    (hi : i < idx.Columns.length) (conds : List ExprNode) :
    ∃ rp1, condLoop rb idx i conds none [] = some (rp1, leftover idx i conds) ∧
      ((∀ c ∈ conds, check idx i c ≠ some true) → rp1 = none) := by
  obtain ⟨rp1, h1, h2⟩ := condLoop_spec rb idx i hi conds none []
  exact ⟨rp1, by simpa using h1, h2⟩

/-- Every iteration the column loop runs is at an offset inside the index and
works on a sub-list of the conditions the loop started with. -/
theorem columnTrace_bounds (rb : rangeBuilder) (idx : IndexInfo) :
    ∀ (k i : Nat) (conds : List ExprNode) (rg : Option (List IndexRange)),
      i + k ≤ idx.Columns.length →
      ∀ e ∈ columnTrace rb idx k i conds rg,
        i ≤ e.1 ∧ e.1 < i + k ∧ e.2.1.Sublist conds
  | 0, _, _, _, _ => by simp [columnTrace]
  | k + 1, i, conds, rg, hk => by
    obtain ⟨rp1, h1, -⟩ := condLoop_start rb idx i (by omega) conds
    intro e he
    cases rp1 with
    | none =>
      simp only [columnTrace, h1, List.mem_singleton] at he
      subst he
      exact ⟨le_refl _, by omega, List.Sublist.refl _⟩
    | some pts =>
      simp only [columnTrace, h1, List.mem_cons] at he
      rcases he with he | he
      · subst he
        exact ⟨le_refl _, by omega, List.Sublist.refl _⟩
      · obtain ⟨a, b, c⟩ := columnTrace_bounds rb idx k (i + 1) _ _ (by omega) e he
        exact ⟨by omega, by omega, c.trans (leftover_sublist idx i conds)⟩

/-- The column loop returns; the conditions it leaves are a sub-list of the
ones it started with, and a condition is gone exactly when the classifier
accepted it at the offset of an iteration that ran. -/
theorem columnLoop_spec (rb : rangeBuilder) (idx : IndexInfo) :
    ∀ (k i : Nat) (conds : List ExprNode) (rg : Option (List IndexRange)),
      i + k ≤ idx.Columns.length →
      ∃ conds1 rg1, columnLoop rb idx k i conds rg = some (conds1, rg1) ∧
        conds1.Sublist conds ∧
        ∀ c ∈ conds, (c ∉ conds1 ↔
          ∃ e ∈ columnTrace rb idx k i conds rg, c ∈ e.2.1 ∧ check idx e.1 c = some true)
  | 0, _, conds, rg, _ =>
    ⟨conds, rg, rfl, List.Sublist.refl _, fun c hc => by simp [columnTrace, hc]⟩
  | k + 1, i, conds, rg, hk => by
    obtain ⟨rp1, h1, -⟩ := condLoop_start rb idx i (by omega) conds
    cases rp1 with
    | none =>
      refine ⟨leftover idx i conds, rg, by simp [columnLoop, h1],
        leftover_sublist idx i conds, ?_⟩
      intro c hc
      simp only [columnTrace, h1, List.mem_singleton, exists_eq_left, mem_leftover]
      constructor
      · intro h
        refine ⟨hc, ?_⟩
        by_contra hn
        exact h ⟨hc, hn⟩
      · intro h hn
        exact hn.2 h.2
    | some pts =>
      obtain ⟨conds1, rg1, h2, hsub, hiff⟩ := columnLoop_spec rb idx k (i + 1)
        (leftover idx i conds)
        (if i = 0 then rb.buildIndexRanges (some pts)
         else rb.appendIndexRanges rg (some pts)) (by omega)
      refine ⟨conds1, rg1, by simp [columnLoop, h1, h2],
        hsub.trans (leftover_sublist idx i conds), ?_⟩
      intro c hc
      simp only [columnTrace, h1, List.exists_mem_cons_iff]
      by_cases hp : check idx i c = some true
      · constructor
        · intro _
          exact Or.inl ⟨hc, hp⟩
        · intro _ hmem
          exact (mem_leftover.mp (hsub.subset hmem)).2 hp
      · have hcl : c ∈ leftover idx i conds := mem_leftover.mpr ⟨hc, hp⟩
        rw [hiff c hcl]
        constructor
        · intro h
          exact Or.inr h
        · rintro (h | h)
          · exact absurd h.2 hp
          · exact h

/-- A condition the classifier accepted at the offset of one iteration is not
among the conditions of any later iteration. -/
theorem columnTrace_ordered (rb : rangeBuilder) (idx : IndexInfo) :
    ∀ (k i : Nat) (conds : List ExprNode) (rg : Option (List IndexRange)),
      i + k ≤ idx.Columns.length →
      ∀ e1 ∈ columnTrace rb idx k i conds rg,
      ∀ e2 ∈ columnTrace rb idx k i conds rg,
        e1.1 < e2.1 → ∀ c ∈ e2.2.1, check idx e1.1 c ≠ some true
  | 0, _, _, _, _ => by simp [columnTrace]
  | k + 1, i, conds, rg, hk => by
    obtain ⟨rp1, h1, -⟩ := condLoop_start rb idx i (by omega) conds
    intro e1 he1 e2 he2 hlt c hc
    cases rp1 with
    | none =>
      simp only [columnTrace, h1, List.mem_singleton] at he1 he2
      subst he1 he2
      exact absurd hlt (lt_irrefl _)
    | some pts =>
      simp only [columnTrace, h1, List.mem_cons] at he1 he2
      rcases he1 with he1 | he1 <;> rcases he2 with he2 | he2
      · subst he1 he2
        exact absurd hlt (lt_irrefl _)
      · subst he1
        have hb := columnTrace_bounds rb idx k (i + 1) _ _ (by omega) e2 he2
        exact (mem_leftover.mp (hb.2.2.subset hc)).2
      · subst he2
        have hb := columnTrace_bounds rb idx k (i + 1) _ _ (by omega) e1 he1
        simp only at hlt
        omega
      · exact columnTrace_ordered rb idx k (i + 1) _ _ (by omega) e1 he1 e2 he2 hlt c hc

/-- The loop stops at the first iteration in which no active condition is
pushable: the result is the state at the start of that iteration, and no
iteration runs at a larger offset. -/
theorem columnLoop_stops (rb : rangeBuilder) (idx : IndexInfo) :
    ∀ (k i : Nat) (conds : List ExprNode) (rg : Option (List IndexRange)),
      i + k ≤ idx.Columns.length →
      ∀ e ∈ columnTrace rb idx k i conds rg,
        (∀ c ∈ e.2.1, check idx e.1 c ≠ some true) →
        columnLoop rb idx k i conds rg = some (e.2.1, e.2.2) ∧
          ∀ e2 ∈ columnTrace rb idx k i conds rg, e2.1 ≤ e.1
  | 0, _, _, _, _ => by simp [columnTrace]
  | k + 1, i, conds, rg, hk => by
    obtain ⟨rp1, h1, hnil⟩ := condLoop_start rb idx i (by omega) conds
    intro e he hnone
    cases rp1 with
    | none =>
      simp only [columnTrace, h1, List.mem_singleton] at he
      subst he
      simp only at hnone
      refine ⟨by simp [columnLoop, h1, leftover_eq_self hnone], ?_⟩
      intro e2 he2
      simp only [columnTrace, h1, List.mem_singleton] at he2
      subst he2
      exact le_refl _
    | some pts =>
      simp only [columnTrace, h1, List.mem_cons] at he
      rcases he with he | he
      · subst he
        simp only at hnone
        exact absurd (hnil hnone) (by simp)
      · obtain ⟨hres, hmax⟩ := columnLoop_stops rb idx k (i + 1) _ _ (by omega) e he hnone
        refine ⟨by simp [columnLoop, h1, hres], ?_⟩
        intro e2 he2
        simp only [columnTrace, h1, List.mem_cons] at he2
        rcases he2 with he2 | he2
        · subst he2
          have hb := columnTrace_bounds rb idx k (i + 1) _ _ (by omega) e he
          simp only
          omega
        · exact hmax e2 he2

/-- `buildIndexRange` returns for every refiner state and every index scan;
it changes only the active conditions and the ranges. -/
theorem buildIndexRange_spec (rb : rangeBuilder) (r : refiner) (p : IndexScan) :
    ∃ conds1 rg1,
      buildIndexRange rb r p =
        some ({ r with conditions := conds1 }, { p with Ranges := rg1 }) ∧
      conds1.Sublist r.conditions ∧
      ∀ c ∈ r.conditions, (c ∉ conds1 ↔
        ∃ e ∈ processed rb r p, c ∈ e.2.1 ∧ check p.Index e.1 c = some true) := by
  obtain ⟨conds1, rg1, h1, hsub, hiff⟩ :=
    columnLoop_spec rb p.Index p.Index.Columns.length 0 r.conditions p.Ranges (by omega)
  exact ⟨conds1, rg1, by simp [buildIndexRange, h1], hsub, hiff⟩

/-- C2: `buildIndexRange` returns, the active conditions it leaves are an
order-preserving sub-list of the ones before the call, a condition is absent
afterwards exactly when it was among the conditions of an iteration the
column loop ran and the classifier accepted it at that iteration's offset, a
condition accepted at one offset is not in the list any later iteration
evaluates, and every iteration is at an offset inside the index and works on
a sub-list of the conditions before the call. -/
theorem buildIndexRange_conditions (rb : rangeBuilder) (r : refiner) (p : IndexScan) :
    ∃ r1 p1, buildIndexRange rb r p = some (r1, p1) ∧
      r1.conditions.Sublist r.conditions ∧
      (∀ c ∈ r.conditions, (c ∉ r1.conditions ↔
        ∃ e ∈ processed rb r p, c ∈ e.2.1 ∧ check p.Index e.1 c = some true)) ∧
      (∀ e1 ∈ processed rb r p, ∀ e2 ∈ processed rb r p, e1.1 < e2.1 →
        ∀ c ∈ e2.2.1, check p.Index e1.1 c ≠ some true) ∧
      (∀ e ∈ processed rb r p, e.1 < p.Index.Columns.length ∧
        e.2.1.Sublist r.conditions) := by
  obtain ⟨conds1, rg1, h1, hsub, hiff⟩ := buildIndexRange_spec rb r p
  refine ⟨_, _, h1, hsub, hiff, ?_, ?_⟩
  · exact columnTrace_ordered rb p.Index p.Index.Columns.length 0 r.conditions
      p.Ranges (by omega)
  · intro e he
    have hb := columnTrace_bounds rb p.Index p.Index.Columns.length 0 r.conditions
      p.Ranges (by omega) e he
    exact ⟨by omega, hb.2.2⟩

/-- C3: if an iteration of the column loop finds no pushable condition among
its active conditions, `buildIndexRange` returns the conditions and the
ranges as they were at the start of that iteration, and no iteration runs at
a larger offset. -/
theorem buildIndexRange_prefix_rule (rb : rangeBuilder) (r : refiner) (p : IndexScan)
    (e : Nat × List ExprNode × Option (List IndexRange))
    (he : e ∈ processed rb r p)
    (hnone : ∀ c ∈ e.2.1, check p.Index e.1 c ≠ some true) :
    buildIndexRange rb r p =
        some ({ r with conditions := e.2.1 }, { p with Ranges := e.2.2 }) ∧
      ∀ e2 ∈ processed rb r p, e2.1 ≤ e.1 := by
  obtain ⟨hres, hmax⟩ := columnLoop_stops rb p.Index p.Index.Columns.length 0
    r.conditions p.Ranges (by omega) e he hnone
  exact ⟨by simp [buildIndexRange, hres], hmax⟩

/-- Witness of C3: the index on `(a, b)` and the single condition `b = 1`;
the first iteration finds nothing pushable, conditions and ranges stay. -/
theorem buildIndexRange_prefix_rule_witness :
    buildIndexRange rbDemo ⟨[colEq "b" 1], [], none⟩ scanAB =
        some (⟨[colEq "b" 1], [], none⟩, scanAB) ∧
      ∀ e2 ∈ processed rbDemo ⟨[colEq "b" 1], [], none⟩ scanAB, e2.1 ≤ 0 :=
  buildIndexRange_prefix_rule rbDemo ⟨[colEq "b" 1], [], none⟩ scanAB
    (0, [colEq "b" 1], none) (List.mem_cons_self _ _)
    (by
      intro c hc
      rw [List.mem_singleton.mp hc]
      decide)

/-! ## Sort bypass -/

theorem byItemsLoop_cons_of_match (idx : IndexInfo) (val : ByItem) (rest : List ByItem)
    (i : Nat) (desc asc : Bool) (h : keyMatches idx i val) :
    byItemsLoop idx (val :: rest) i desc asc =
      byItemsLoop idx rest (i + 1) (desc || val.Desc) (asc || !val.Desc) := by
  obtain ⟨t, c, ic, he, ht, hc, hn⟩ := h
  have hd : (if val.Desc = true then true else desc) = (desc || val.Desc) := by
    cases val.Desc <;> simp
  have ha : (if val.Desc = true then asc else true) = (asc || !val.Desc) := by
    cases val.Desc <;> simp
  simp only [byItemsLoop, he, ht, hc, hn, ne_eq, not_true_eq_false, if_false, hd, ha]

theorem byItemsLoop_cons_of_not_match (idx : IndexInfo) (val : ByItem)
    (rest : List ByItem) (i : Nat) (desc asc : Bool)
    (hi : i < idx.Columns.length) (h : ¬ keyMatches idx i val) :
    byItemsLoop idx (val :: rest) i desc asc = some none := by
  unfold byItemsLoop
  cases he : val.Expr with
  | ColumnNameExpr t c =>
    simp only []
    by_cases ht : idx.Table.L = t.L
    · rw [List.getElem?_eq_getElem hi]
      by_cases hn : (idx.Columns[i]).Name.L = c.L
      · exact absurd ⟨t, c, idx.Columns[i], he, ht, List.getElem?_eq_getElem hi, hn⟩ h
      · simp [ht, hn]
    · simp [ht]
  | _ => rfl

theorem byItemsLoop_of_match (idx : IndexInfo) :
    ∀ (items : List ByItem) (i : Nat) (desc asc : Bool),
      (∀ k (hk : k < items.length), keyMatches idx (i + k) (items.get ⟨k, hk⟩)) →
      byItemsLoop idx items i desc asc =
        some (some (desc || items.any (fun v => v.Desc),
                    asc || items.any (fun v => !v.Desc)))
  | [], i, desc, asc, _ => by simp [byItemsLoop]
  | val :: rest, i, desc, asc, h => by
    have h0 : keyMatches idx i val := by simpa using h 0 (by simp)
    have hrest : ∀ k (hk : k < rest.length),
        keyMatches idx (i + 1 + k) (rest.get ⟨k, hk⟩) := by
      intro k hk
      have := h (k + 1) (by simpa using hk)
      simpa [Nat.add_assoc, Nat.add_comm 1 k] using this
    rw [byItemsLoop_cons_of_match idx val rest i desc asc h0,
      byItemsLoop_of_match idx rest (i + 1) _ _ hrest]
    simp [List.any_cons, Bool.or_assoc]

theorem byItemsLoop_of_not_match (idx : IndexInfo) :
    ∀ (items : List ByItem) (i : Nat) (desc asc : Bool),
      items.length + i ≤ idx.Columns.length →
      ¬ (∀ k (hk : k < items.length), keyMatches idx (i + k) (items.get ⟨k, hk⟩)) →
      byItemsLoop idx items i desc asc = some none
  | [], i, desc, asc, _, h => by
    exact absurd (fun k hk => absurd hk (by simp)) h
  | val :: rest, i, desc, asc, hlen, h => by
    have hi : i < idx.Columns.length := by
      simp only [List.length_cons] at hlen
      omega
    by_cases h0 : keyMatches idx i val
    · rw [byItemsLoop_cons_of_match idx val rest i desc asc h0]
      apply byItemsLoop_of_not_match idx rest (i + 1)
      · simp only [List.length_cons] at hlen
        omega
      · intro hrest
        apply h
        intro k hk
        cases k with
        | zero => simpa using h0
        | succ j =>
          have := hrest j (by simpa using hk)
          simpa [Nat.add_assoc, Nat.add_comm 1 j] using this
    · exact byItemsLoop_cons_of_not_match idx val rest i desc asc hi h0

theorem any_desc_iff (items : List ByItem) :
    items.any (fun v => v.Desc) = true ↔ ∃ v ∈ items, v.Desc = true := by
  simp [List.any_eq_true]

theorem any_asc_iff (items : List ByItem) :
    items.any (fun v => !v.Desc) = true ↔ ∃ v ∈ items, v.Desc = false := by
  simp [List.any_eq_true]

/-- What `sortBypass` does on a recorded scan when every key maps onto the
index column at its position. -/
theorem sortBypass_of_match (scan : IndexScan) (p : SortNode)
    (hkeys : ∀ k (hk : k < p.ByItems.length),
      keyMatches scan.Index k (p.ByItems.get ⟨k, hk⟩)) :
    sortBypass (some scan) p =
      if p.ByItems.length > scan.Index.Columns.length then some (some scan, p)
      else if (p.ByItems.any (fun v => v.Desc) && p.ByItems.any (fun v => !v.Desc)) = true
      then some (some scan, p)
      else some (some (if p.ByItems.any (fun v => v.Desc) = true
                       then { scan with Desc := true } else scan),
                 { p with Bypass := true }) := by
  have hloop := byItemsLoop_of_match scan.Index p.ByItems 0 false false
    (by simpa using hkeys)
  simp only [sortBypass, hloop, Bool.false_or]

/-- What `sortBypass` does on a recorded scan when some key does not map onto
the index column at its position: nothing. -/
theorem sortBypass_of_not_match (scan : IndexScan) (p : SortNode)
    (hkeys : ¬ ∀ k (hk : k < p.ByItems.length),
      keyMatches scan.Index k (p.ByItems.get ⟨k, hk⟩)) :
    sortBypass (some scan) p = some (some scan, p) := by
  unfold sortBypass
  by_cases hlen : p.ByItems.length > scan.Index.Columns.length
  · simp [hlen]
  · have hloop := byItemsLoop_of_not_match scan.Index p.ByItems 0 false false
      (by omega) (by simpa using hkeys)
    simp [hlen, hloop]

/-- The index bound of `idx.Columns[i]` in `sortBypass` is never exceeded: the
function returns for every recorded scan and every sort node. -/
theorem sortBypass_total (indexScan : Option IndexScan) (p : SortNode) :
    ∃ out, sortBypass indexScan p = some out := by
  cases indexScan with
  | none => exact ⟨_, rfl⟩
  | some scan =>
    by_cases hkeys : ∀ k (hk : k < p.ByItems.length),
        keyMatches scan.Index k (p.ByItems.get ⟨k, hk⟩)
    · rw [sortBypass_of_match scan p hkeys]
      split
      · exact ⟨_, rfl⟩
      · split <;> exact ⟨_, rfl⟩
    · exact ⟨_, sortBypass_of_not_match scan p hkeys⟩

theorem keyMatches_idxAB_a (d : Bool) : keyMatches idxAB 0 ⟨col "a", d⟩ :=
  ⟨ci "t", ci "a", ⟨ci "a"⟩, rfl, rfl, rfl, rfl⟩

theorem keyMatches_idxAB_b (d : Bool) : keyMatches idxAB 1 ⟨col "b", d⟩ :=
  ⟨ci "t", ci "b", ⟨ci "b"⟩, rfl, rfl, rfl, rfl⟩

/-- C5: when the sort keys hold at least one ascending and at least one
descending key, `sortBypass` returns with the sort node (so `Bypass`) and the
recorded index scan (so `Desc`) exactly as they were, for every index and
every key expression. -/
theorem sortBypass_mixed (indexScan : Option IndexScan) (p : SortNode)
    (hasc : ∃ v ∈ p.ByItems, v.Desc = false)
    (hdesc : ∃ v ∈ p.ByItems, v.Desc = true) :
    sortBypass indexScan p = some (indexScan, p) := by
  cases indexScan with
  | none => rfl
  | some scan =>
    by_cases hkeys : ∀ k (hk : k < p.ByItems.length),
        keyMatches scan.Index k (p.ByItems.get ⟨k, hk⟩)
    · rw [sortBypass_of_match scan p hkeys]
      have h1 := (any_desc_iff p.ByItems).mpr hdesc
      have h2 := (any_asc_iff p.ByItems).mpr hasc
      simp [h1, h2]
    · exact sortBypass_of_not_match scan p hkeys

/-- Witness of C5: `ORDER BY a ASC, b DESC` over the index on `(a, b)`. -/
theorem sortBypass_mixed_witness :
    sortBypass (some scanAB) sortAscDesc = some (some scanAB, sortAscDesc) ∧
      sortAscDesc.Bypass = false :=
  ⟨sortBypass_mixed (some scanAB) sortAscDesc
      ⟨⟨col "a", false⟩, by simp [sortAscDesc], rfl⟩
      ⟨⟨col "b", true⟩, by simp [sortAscDesc], rfl⟩, rfl⟩

/-- C6: with a recorded index scan, at most as many sort keys as index
columns, and every key an ascending column reference of the index's table
naming the index column at its position, `sortBypass` sets `Bypass` and
leaves the scan, `Desc` included, as it was. -/
theorem sortBypass_ascending (scan : IndexScan) (p : SortNode)
    (hlen : p.ByItems.length ≤ scan.Index.Columns.length)
    (hkeys : ∀ k (hk : k < p.ByItems.length),
      keyMatches scan.Index k (p.ByItems.get ⟨k, hk⟩) ∧
        (p.ByItems.get ⟨k, hk⟩).Desc = false) :
    sortBypass (some scan) p = some (some scan, { p with Bypass := true }) := by
  rw [sortBypass_of_match scan p (fun k hk => (hkeys k hk).1)]
  have hnd : p.ByItems.any (fun v => v.Desc) = false := by
    rw [Bool.eq_false_iff, Ne, any_desc_iff]
    rintro ⟨v, hv, hd⟩
    obtain ⟨n, hn⟩ := List.get_of_mem hv
    have := (hkeys n.1 n.2).2
    rw [hn] at this
    simp [this] at hd
  simp [hnd, Nat.not_lt.mpr hlen]

/-- Witness of C6: `ORDER BY a, b` over the index on `(a, b)`. -/
theorem sortBypass_ascending_witness :
    sortBypass (some scanAB) sortAscAsc =
      some (some scanAB, { sortAscAsc with Bypass := true }) :=
  sortBypass_ascending scanAB sortAscAsc (by decide) (by
    intro k hk
    have hk2 : k < 2 := hk
    interval_cases k
    · exact ⟨keyMatches_idxAB_a false, rfl⟩
    · exact ⟨keyMatches_idxAB_b false, rfl⟩)

/-- C7: with a recorded index scan, at least one and at most as many sort
keys as index columns, and every key a descending column reference of the
index's table naming the index column at its position, `sortBypass` sets
`Bypass` on the sort node and `Desc` on the scan. -/
theorem sortBypass_descending (scan : IndexScan) (p : SortNode)
    (hpos : 1 ≤ p.ByItems.length)
    (hlen : p.ByItems.length ≤ scan.Index.Columns.length)
    (hkeys : ∀ k (hk : k < p.ByItems.length),
      keyMatches scan.Index k (p.ByItems.get ⟨k, hk⟩) ∧
        (p.ByItems.get ⟨k, hk⟩).Desc = true) :
    sortBypass (some scan) p =
      some (some { scan with Desc := true }, { p with Bypass := true }) := by
  rw [sortBypass_of_match scan p (fun k hk => (hkeys k hk).1)]
  have hna : p.ByItems.any (fun v => !v.Desc) = false := by
    rw [Bool.eq_false_iff, Ne, any_asc_iff]
    rintro ⟨v, hv, hd⟩
    obtain ⟨n, hn⟩ := List.get_of_mem hv
    have := (hkeys n.1 n.2).2
    rw [hn] at this
    simp [this] at hd
  have hd : p.ByItems.any (fun v => v.Desc) = true := by
    rw [any_desc_iff]
    exact ⟨p.ByItems.get ⟨0, hpos⟩, List.get_mem _ _ _, (hkeys 0 hpos).2⟩
  simp [hna, hd, Nat.not_lt.mpr hlen]

/-- Witness of C7: `ORDER BY a DESC, b DESC` over the index on `(a, b)`. -/
theorem sortBypass_descending_witness :
    sortBypass (some scanAB) sortDescDesc =
      some (some { scanAB with Desc := true }, { sortDescDesc with Bypass := true }) :=
  sortBypass_descending scanAB sortDescDesc (by decide) (by decide) (by
    intro k hk
    have hk2 : k < 2 := hk
    interval_cases k
    · exact ⟨keyMatches_idxAB_a true, rfl⟩
    · exact ⟨keyMatches_idxAB_b true, rfl⟩)

/-- C8: `sortBypass` always returns; when the eligibility condition fails
(no recorded scan, more keys than index columns, a key that is not the column
reference of its position, or mixed directions) the sort node and the
recorded scan are returned as they were; hence `Bypass` goes from false to
true only under the eligibility condition, and under it `Bypass` is set. -/
theorem sortBypass_only_if_eligible (indexScan : Option IndexScan) (p : SortNode) :
    (∃ out, sortBypass indexScan p = some out) ∧
    (¬ eligible indexScan p → sortBypass indexScan p = some (indexScan, p)) ∧
    (∀ scan1 p1, sortBypass indexScan p = some (scan1, p1) →
      p.Bypass = false → p1.Bypass = true → eligible indexScan p) ∧
    (eligible indexScan p →
      ∃ scan1, sortBypass indexScan p = some (scan1, { p with Bypass := true })) := by
  have hne : ¬ eligible indexScan p → sortBypass indexScan p = some (indexScan, p) := by
    intro hel
    cases indexScan with
    | none => rfl
    | some scan =>
      by_cases hkeys : ∀ k (hk : k < p.ByItems.length),
          keyMatches scan.Index k (p.ByItems.get ⟨k, hk⟩)
      · rw [sortBypass_of_match scan p hkeys]
        by_cases hlen : p.ByItems.length > scan.Index.Columns.length
        · simp [hlen]
        · have hmix : mixedDirections p.ByItems := by
            by_contra hm
            exact hel ⟨scan, rfl, Nat.not_lt.mp hlen, hkeys, hm⟩
          have h1 := (any_desc_iff p.ByItems).mpr hmix.1
          have h2 := (any_asc_iff p.ByItems).mpr hmix.2
          simp [h1, h2]
      · exact sortBypass_of_not_match scan p hkeys
  refine ⟨sortBypass_total indexScan p, hne, ?_, ?_⟩
  · intro scan1 p1 hout hb hb1
    by_contra hel
    rw [hne hel] at hout
    have : p = p1 := by injection hout with h; exact (Prod.mk.inj h).2
    rw [← this, hb] at hb1
    exact Bool.noConfusion hb1
  · rintro ⟨scan, rfl, hlen, hkeys, hmix⟩
    rw [sortBypass_of_match scan p hkeys]
    have hm : ¬ ((p.ByItems.any (fun v => v.Desc) &&
        p.ByItems.any (fun v => !v.Desc)) = true) := by
      rw [Bool.and_eq_true, any_desc_iff, any_asc_iff]
      exact hmix
    rw [if_neg (Nat.not_lt.mpr hlen), if_neg hm]
    exact ⟨_, rfl⟩

/-! ## The visitor hooks and the traversal -/

theorem Consumed.refl (sh : Ptr → Shape) (qs : List Ptr) (cs : List ExprNode) :
    Consumed sh qs cs cs :=
  ⟨List.Sublist.refl _, fun _ hc hn => absurd hc hn⟩

theorem Consumed.mono {sh : Ptr → Shape} {qs qs1 : List Ptr} {cs cs1 : List ExprNode}
    (h : Consumed sh qs cs cs1) (hsub : ∀ q ∈ qs, q ∈ qs1) : Consumed sh qs1 cs cs1 := by
  refine ⟨h.1, fun c hc hn => ?_⟩
  obtain ⟨q, hq, rest⟩ := h.2 c hc hn
  exact ⟨q, hsub q hq, rest⟩

theorem Consumed.trans {sh : Ptr → Shape} {qs : List Ptr} {cs cs1 cs2 : List ExprNode}
    (h1 : Consumed sh qs cs cs1) (h2 : Consumed sh qs cs1 cs2) :
    Consumed sh qs cs cs2 := by
  refine ⟨h2.1.trans h1.1, fun c hc hn => ?_⟩
  by_cases hc1 : c ∈ cs1
  · exact h2.2 c hc1 hn
  · exact h1.2 c hc hc1

theorem buildIndexRange_consumed (rb : rangeBuilder) (sh : Ptr → Shape) (p : Ptr)
    (r : refiner) (x : IndexScan) (hp : sh p = .scan x.Index) :
    ∃ conds1 rg1,
      buildIndexRange rb r x =
        some ({ r with conditions := conds1 }, { x with Ranges := rg1 }) ∧
      Consumed sh [p] r.conditions conds1 := by
  obtain ⟨conds1, rg1, h1, hsub, hiff⟩ := buildIndexRange_spec rb r x
  refine ⟨conds1, rg1, h1, hsub, fun c hc hn => ?_⟩
  obtain ⟨e, he, -, hchk⟩ := (hiff c hc).mp hn
  have hb := columnTrace_bounds rb x.Index x.Index.Columns.length 0 r.conditions
    x.Ranges (by omega) e he
  exact ⟨p, List.mem_singleton.mpr rfl, x.Index, hp, e.1, by omega, hchk⟩

theorem Shaped.update {sh : Ptr → Shape} {h : Heap} (hs : Shaped sh h) (p : Ptr)
    (v : Plan) (hv : v.shape = sh p) : Shaped sh (Function.update h p v) := by
  intro q
  by_cases hq : q = p
  · subst hq
    simpa using hv
  · simpa [Function.update_noteq hq] using hs q

theorem shape_filter {sh : Ptr → Shape} {h : Heap} (hs : Shaped sh h) {q : Ptr}
    (hq : sh q = .filter) : ∃ x, h q = .Filter x := by
  have := hs q
  rw [hq] at this
  cases hh : h q with
  | Filter x => exact ⟨x, rfl⟩
  | _ => simp [hh, Plan.shape] at this

/-- `Enter` returns the node it was given and never asks to skip the
children; it keeps the shape of the heap and every `Filter` node; on a
`Filter` it loads the node's conditions, on any other node it only removes
conditions pushable to that node's index. -/
theorem Enter_step (rb : rangeBuilder) (sh : Ptr → Shape) (r : refiner) (h : Heap)
    (p : Ptr) (hs : Shaped sh h) :
    ∃ v, Enter rb r h p = some v ∧ v.out = p ∧ v.flag = false ∧ Shaped sh v.heap ∧
      (∀ q, sh q = .filter → v.heap q = h q) ∧
      (∀ x, h p = .Filter x → v.r.conditions = x.Conditions) ∧
      (sh p ≠ .filter → Consumed sh [p] r.conditions v.r.conditions) := by
  have hsp := hs p
  cases hp : h p with
  | Filter x =>
    refine ⟨⟨p, false, { r with conditions := x.Conditions }, h⟩, by simp [Enter, hp],
      rfl, rfl, hs, fun _ _ => rfl, ?_, ?_⟩
    · intro y hy
      cases hy
      rfl
    · intro hne
      rw [hp] at hsp
      exact absurd hsp.symm hne
  | IndexScan x =>
    rw [hp] at hsp
    obtain ⟨conds1, rg1, h1, hcons⟩ :=
      buildIndexRange_consumed rb sh p { r with indexScan := some p } x hsp.symm
    refine ⟨⟨p, false, { r with conditions := conds1, indexScan := some p },
        Function.update h p (.IndexScan { x with Ranges := rg1 })⟩,
      by simp [Enter, hp, h1], rfl, rfl, hs.update p _ hsp, ?_, by simp, fun _ => hcons⟩
    intro q hq
    have hqp : q ≠ p := by
      rintro rfl
      rw [← hsp] at hq
      simp [Plan.shape] at hq
    simp [Function.update_noteq hqp]
  | SortNode x =>
    refine ⟨⟨p, false, r, h⟩, by simp [Enter, hp], rfl, rfl, hs, fun _ _ => rfl, by simp,
      fun _ => Consumed.refl _ _ _⟩
  | Limit x =>
    refine ⟨⟨p, false, r, h⟩, by simp [Enter, hp], rfl, rfl, hs, fun _ _ => rfl, by simp,
      fun _ => Consumed.refl _ _ _⟩
  | Other k =>
    refine ⟨⟨p, false, r, h⟩, by simp [Enter, hp], rfl, rfl, hs, fun _ _ => rfl, by simp,
      fun _ => Consumed.refl _ _ _⟩

theorem sortBypass_some_index (s : IndexScan) (p : SortNode) :
    ∃ s1 p1, sortBypass (some s) p = some (some s1, p1) ∧ s1.Index = s.Index := by
  by_cases hkeys : ∀ k (hk : k < p.ByItems.length),
      keyMatches s.Index k (p.ByItems.get ⟨k, hk⟩)
  · rw [sortBypass_of_match s p hkeys]
    split
    · exact ⟨s, p, rfl, rfl⟩
    · split
      · exact ⟨s, p, rfl, rfl⟩
      · split
        · exact ⟨_, _, rfl, rfl⟩
        · exact ⟨_, _, rfl, rfl⟩
  · exact ⟨s, p, sortBypass_of_not_match s p hkeys, rfl⟩

/-- Leaving a sort node: the heap keeps its shape and every node that is not
an index scan or the sort node itself. -/
theorem Leave_sort (sh : Ptr → Shape) (r : refiner) (h : Heap) (p : Ptr) (x : SortNode)
    (hs : Shaped sh h) (hp : h p = .SortNode x) :
    ∃ scan x1, sortBypass (deref h r.indexScan) x = some (scan, x1) ∧
      Shaped sh (writeSort h r.indexScan scan p x1) ∧
      ∀ q, sh q = .filter → writeSort h r.indexScan scan p x1 q = h q := by
  have hshp : sh p = .other := by
    have := hs p
    rw [hp] at this
    exact this.symm
  have hfp : ∀ q, sh q = .filter → q ≠ p := by
    rintro q hq rfl
    rw [hshp] at hq
    exact Shape.noConfusion hq
  cases hi : r.indexScan with
  | none =>
    refine ⟨none, x, by simp [deref, sortBypass], ?_, ?_⟩
    · exact hs.update p _ (by simp [Plan.shape, hshp])
    · intro q hq
      simp [writeSort, Function.update_noteq (hfp q hq)]
  | some t =>
    cases ht : h t with
    | IndexScan s =>
      obtain ⟨s1, p1, h1, hidx⟩ := sortBypass_some_index s x
      have hsht : sh t = .scan s.Index := by
        have := hs t
        rw [ht] at this
        exact this.symm
      refine ⟨some s1, p1, by simp [deref, ht, h1], ?_, ?_⟩
      · exact (hs.update t (.IndexScan s1) (by simp [Plan.shape, hsht, hidx])).update p _
          (by simp [Plan.shape, hshp])
      · intro q hq
        have hqt : q ≠ t := by
          rintro rfl
          rw [hsht] at hq
          exact Shape.noConfusion hq
        simp [writeSort, Function.update_noteq (hfp q hq), Function.update_noteq hqt]
    | Filter y =>
      refine ⟨none, x, by simp [deref, ht, sortBypass], ?_, ?_⟩
      · exact hs.update p _ (by simp [Plan.shape, hshp])
      · intro q hq
        simp [writeSort, Function.update_noteq (hfp q hq)]
    | SortNode y =>
      refine ⟨none, x, by simp [deref, ht, sortBypass], ?_, ?_⟩
      · exact hs.update p _ (by simp [Plan.shape, hshp])
      · intro q hq
        simp [writeSort, Function.update_noteq (hfp q hq)]
    | Limit y =>
      refine ⟨none, x, by simp [deref, ht, sortBypass], ?_, ?_⟩
      · exact hs.update p _ (by simp [Plan.shape, hshp])
      · intro q hq
        simp [writeSort, Function.update_noteq (hfp q hq)]
    | Other y =>
      refine ⟨none, x, by simp [deref, ht, sortBypass], ?_, ?_⟩
      · exact hs.update p _ (by simp [Plan.shape, hshp])
      · intro q hq
        simp [writeSort, Function.update_noteq (hfp q hq)]

/-- `Leave` returns; it keeps the shape of the heap and every `Filter` node
other than the one left; on a `Filter` it stores the active conditions in the
node, on any other node it only removes conditions pushable to that node's
index. -/
theorem Leave_step (rb : rangeBuilder) (sh : Ptr → Shape) (r : refiner) (h : Heap)
    (p : Ptr) (hs : Shaped sh h) :
    ∃ w, Leave rb r h p = some w ∧ w.out = p ∧ w.flag = true ∧ Shaped sh w.heap ∧
      (∀ q, sh q = .filter → q ≠ p → w.heap q = h q) ∧
      (sh p = .filter → w.r.conditions = r.conditions ∧
        w.heap p = .Filter ⟨r.conditions⟩) ∧
      (sh p ≠ .filter → Consumed sh [p] r.conditions w.r.conditions) := by
  have hsp := hs p
  cases hp : h p with
  | Filter x =>
    rw [hp] at hsp
    refine ⟨⟨p, true, r, Function.update h p (.Filter { x with Conditions := r.conditions })⟩,
      by simp [Leave, hp], rfl, rfl, hs.update p _ hsp, ?_, ?_, ?_⟩
    · intro q _ hqp
      simp [Function.update_noteq hqp]
    · intro _
      exact ⟨rfl, by simp⟩
    · intro hne
      exact absurd hsp.symm hne
  | IndexScan x =>
    rw [hp] at hsp
    obtain ⟨conds1, rg1, h1, hcons⟩ := buildIndexRange_consumed rb sh p r x hsp.symm
    refine ⟨⟨p, true, { r with conditions := conds1 },
        Function.update h p (.IndexScan { x with Ranges := rg1 })⟩,
      by simp [Leave, hp, h1], rfl, rfl, hs.update p _ hsp, ?_, ?_, fun _ => hcons⟩
    · intro q _ hqp
      simp [Function.update_noteq hqp]
    · intro hf
      rw [hf] at hsp
      simp [Plan.shape] at hsp
  | SortNode x =>
    rw [hp] at hsp
    obtain ⟨scan, x1, h1, hsh, hfr⟩ := Leave_sort sh r h p x hs hp
    refine ⟨⟨p, true, r, writeSort h r.indexScan scan p x1⟩, by simp [Leave, hp, h1],
      rfl, rfl, hsh, fun q hq _ => hfr q hq, ?_, fun _ => Consumed.refl _ _ _⟩
    intro hf
    rw [hf] at hsp
    simp [Plan.shape] at hsp
  | Limit x =>
    rw [hp] at hsp
    refine ⟨⟨p, true, r, Function.update h p (.Limit (x.SetLimit 0))⟩, by simp [Leave, hp],
      rfl, rfl, hs.update p _ hsp, ?_, ?_, fun _ => Consumed.refl _ _ _⟩
    · intro q _ hqp
      simp [Function.update_noteq hqp]
    · intro hf
      rw [hf] at hsp
      simp [Plan.shape] at hsp
  | Other k =>
    rw [hp] at hsp
    refine ⟨⟨p, true, r, h⟩, by simp [Leave, hp], rfl, rfl, hs, fun _ _ _ => rfl, ?_,
      fun _ => Consumed.refl _ _ _⟩
    intro hf
    rw [hf] at hsp
    simp [Plan.shape] at hsp

theorem Forest.fst_mem_ptrs_of_mem_subtrees :
    ∀ (t : Forest) (fk : Ptr × Forest), fk ∈ t.subtrees → fk.1 ∈ t.ptrs
  | .nil, _, h => by simp [Forest.subtrees] at h
  | .cons p k rest, fk, h => by
    simp only [Forest.subtrees, List.mem_cons, List.mem_append] at h
    simp only [Forest.ptrs, List.mem_cons, List.mem_append]
    rcases h with h | h | h
    · subst h
      exact Or.inl rfl
    · exact Or.inr (Or.inl (Forest.fst_mem_ptrs_of_mem_subtrees k fk h))
    · exact Or.inr (Or.inr (Forest.fst_mem_ptrs_of_mem_subtrees rest fk h))

theorem shape_of_filter {sh : Ptr → Shape} {h : Heap} (hs : Shaped sh h) {q : Ptr}
    {x : Filter} (hq : h q = .Filter x) : sh q = .filter := by
  have := hs q
  rw [hq] at this
  exact this.symm

/-- The traversal of a forest returns; it keeps the shape of the heap and
every `Filter` node outside the forest; over a forest without `Filter` nodes
it only removes pushable conditions from the active list; and, when the
pointers are distinct, each `Filter` of the forest that has no `Filter` below
it ends with a sub-list of its conditions from which only conditions pushable
to an index scan below it are missing. -/
theorem Accept_spec (rb : rangeBuilder) (sh : Ptr → Shape) :
    ∀ (t : Forest) (r : refiner) (h : Heap), Shaped sh h →
      ∃ r1 h1, Accept rb t r h = some (r1, h1) ∧ Shaped sh h1 ∧
        (∀ q, sh q = .filter → q ∉ t.ptrs → h1 q = h q) ∧
        ((∀ q ∈ t.ptrs, sh q ≠ .filter) →
          Consumed sh t.ptrs r.conditions r1.conditions) ∧
        (t.ptrs.Nodup →
          ∀ fk ∈ t.subtrees, ∀ x, h fk.1 = .Filter x →
            (∀ q ∈ fk.2.ptrs, sh q ≠ .filter) →
            ∃ x1, h1 fk.1 = .Filter x1 ∧
              Consumed sh fk.2.ptrs x.Conditions x1.Conditions)
  | .nil, r, h, hs =>
    ⟨r, h, rfl, hs, fun _ _ _ => rfl, fun _ => Consumed.refl _ _ _,
      fun _ fk hfk => by simp [Forest.subtrees] at hfk⟩
  | .cons p k rest, r, h, hs => by
    obtain ⟨v, hv, hout, hflag, hsh1, hfr1, hload, hcons1⟩ := Enter_step rb sh r h p hs
    obtain ⟨r2, h2, hA2, hsh2, hfr2, hnf2, hmain2⟩ := Accept_spec rb sh k v.r v.heap hsh1
    obtain ⟨w, hw, -, -, hsh3, hfr3, hfil3, hcons3⟩ := Leave_step rb sh r2 h2 p hsh2
    obtain ⟨r4, h4, hA4, hsh4, hfr4, hnf4, hmain4⟩ :=
      Accept_spec rb sh rest w.r w.heap hsh3
    refine ⟨r4, h4, by simp [Accept, hv, hflag, hA2, hout, hw, hA4], hsh4, ?_, ?_, ?_⟩
    · intro q hq hmem
      simp only [Forest.ptrs, List.mem_cons, List.mem_append, not_or] at hmem
      rw [hfr4 q hq hmem.2.2, hfr3 q hq hmem.1, hfr2 q hq hmem.2.1, hfr1 q hq]
    · intro hnf
      have hp : sh p ≠ .filter := hnf p (by simp [Forest.ptrs])
      have hk : ∀ q ∈ k.ptrs, sh q ≠ .filter :=
        fun q hq => hnf q (by simp [Forest.ptrs, hq])
      have hr : ∀ q ∈ rest.ptrs, sh q ≠ .filter :=
        fun q hq => hnf q (by simp [Forest.ptrs, hq])
      have c1 : Consumed sh (Forest.cons p k rest).ptrs r.conditions v.r.conditions :=
        (hcons1 hp).mono (fun q hq => by simp [Forest.ptrs, List.mem_singleton.mp hq])
      have c2 : Consumed sh (Forest.cons p k rest).ptrs v.r.conditions r2.conditions :=
        (hnf2 hk).mono (fun q hq => by simp [Forest.ptrs, hq])
      have c3 : Consumed sh (Forest.cons p k rest).ptrs r2.conditions w.r.conditions :=
        (hcons3 hp).mono (fun q hq => by simp [Forest.ptrs, List.mem_singleton.mp hq])
      have c4 : Consumed sh (Forest.cons p k rest).ptrs w.r.conditions r4.conditions :=
        (hnf4 hr).mono (fun q hq => by simp [Forest.ptrs, hq])
      exact ((c1.trans c2).trans c3).trans c4
    · intro hnd fk hfk x hx hloc
      simp only [Forest.ptrs, List.nodup_cons, List.mem_append, not_or,
        List.nodup_append] at hnd
      obtain ⟨⟨hpk, hpr⟩, hndk, hndr, hdisj⟩ := hnd
      have hshf : sh fk.1 = .filter := shape_of_filter hs hx
      simp only [Forest.subtrees, List.mem_cons, List.mem_append] at hfk
      rcases hfk with hfk | hfk | hfk
      · subst hfk
        have hk : ∀ q ∈ k.ptrs, sh q ≠ .filter := hloc
        have hc := hnf2 hk
        rw [hload x hx] at hc
        refine ⟨⟨r2.conditions⟩, ?_, hc⟩
        show h4 p = _
        rw [hfr4 p hshf hpr]
        exact (hfil3 hshf).2
      · have hmem := Forest.fst_mem_ptrs_of_mem_subtrees k fk hfk
        have hne : fk.1 ≠ p := by
          rintro heq
          rw [heq] at hmem
          exact hpk hmem
        have hnr : fk.1 ∉ rest.ptrs := fun hm => hdisj hmem hm
        have hx1 : v.heap fk.1 = .Filter x := by rw [hfr1 fk.1 hshf, hx]
        obtain ⟨x1, hx2, hc⟩ := hmain2 hndk fk hfk x hx1 hloc
        exact ⟨x1, by rw [hfr4 fk.1 hshf hnr, hfr3 fk.1 hshf hne, hx2], hc⟩
      · have hmem := Forest.fst_mem_ptrs_of_mem_subtrees rest fk hfk
        have hne : fk.1 ≠ p := by
          rintro heq
          rw [heq] at hmem
          exact hpr hmem
        have hnk : fk.1 ∉ k.ptrs := fun hm => hdisj hm hmem
        have hx1 : w.heap fk.1 = .Filter x := by
          rw [hfr3 fk.1 hshf hne, hfr2 fk.1 hshf hnk, hfr1 fk.1 hshf, hx]
        exact hmain4 hndr fk hfk x hx1 hloc

theorem shape_eq_filter_iff (v : Plan) : v.shape = .filter ↔ v.isFilter = true := by
  cases v <;> simp [Plan.shape, Plan.isFilter]

theorem shape_eq_scan {v : Plan} {idx : IndexInfo} (h : v.shape = .scan idx) :
    ∃ s, v = .IndexScan s ∧ s.Index = idx := by
  cases v with
  | IndexScan s =>
    simp only [Plan.shape, Shape.scan.injEq] at h
    exact ⟨s, rfl, h⟩
  | _ => simp [Plan.shape] at h

/-- C1, the claim as stated fails: refining `Filter [c = 1]` over
`Filter [d = 2]` over an index scan leaves the outer filter with `[d = 2]`,
the inner filter's condition, which is no sub-list of `[c = 1]`. -/
theorem refine_nested_filter_counterexample :
    ∃ h1, refine rbDemo heapNested 0 (.cons 1 (.cons 2 .nil .nil) .nil) = some h1 ∧
      h1 0 = .Filter ⟨[colEq "d" 2]⟩ ∧
      ¬ List.Sublist [colEq "d" 2] [colEq "c" 1] := by
  refine ⟨_, rfl, rfl, ?_⟩
  intro hsub
  have hmem : colEq "d" 2 ∈ [colEq "c" 1] := hsub.subset (List.mem_singleton.mpr rfl)
  rw [List.mem_singleton] at hmem
  simp [colEq, col, ci] at hmem

/-- C1 as amended: for a plan tree with distinct nodes `refine` returns, and
every `Filter` of the tree that has no other `Filter` in its own subtree,
whatever lies above it or beside it, ends with an order-preserving sub-list
of its original conditions from which a condition is missing only if the
classifier accepted it at some column of an index scan in that filter's
subtree. -/
theorem refine_filter_conditions (rb : rangeBuilder) (h : Heap) (p : Ptr)
    (children : Forest)
    (hnodup : (Forest.cons p children .nil).ptrs.Nodup) :
    ∃ h1, refine rb h p children = some h1 ∧
      ∀ fk ∈ (Forest.cons p children .nil).subtrees, ∀ x, h fk.1 = .Filter x →
        (∀ q ∈ fk.2.ptrs, (h q).isFilter = false) →
        ∃ x1, h1 fk.1 = .Filter x1 ∧ x1.Conditions.Sublist x.Conditions ∧
          ∀ c ∈ x.Conditions, c ∉ x1.Conditions →
            ∃ q ∈ fk.2.ptrs, ∃ s, h q = .IndexScan s ∧
              ∃ i, i < s.Index.Columns.length ∧ check s.Index i c = some true := by
  obtain ⟨r1, h1, hA, -, -, -, hmain⟩ :=
    Accept_spec rb (fun q => (h q).shape) (.cons p children .nil) ⟨[], [], none⟩ h
      (fun _ => rfl)
  refine ⟨h1, by simp [refine, hA], ?_⟩
  intro fk hfk x hx hloc
  have hloc2 : ∀ q ∈ fk.2.ptrs, (h q).shape ≠ .filter := by
    intro q hq hqf
    have := hloc q hq
    rw [(shape_eq_filter_iff _).mp hqf] at this
    exact Bool.noConfusion this
  obtain ⟨x1, hx1, hsub, hmiss⟩ := hmain hnodup fk hfk x hx hloc2
  refine ⟨x1, hx1, hsub, fun c hc hn => ?_⟩
  obtain ⟨q, hq, idx, hidx, i, hi, hchk⟩ := hmiss c hc hn
  obtain ⟨s, hs, hsi⟩ := shape_eq_scan hidx
  exact ⟨q, hq, s, hs, i, by rw [hsi]; exact hi, by rw [hsi]; exact hchk⟩

/-- Witness of C1 as amended: `Filter [c = 1]` over `Filter [a = 1, d = 2]`
over a scan of the index on `(a, b)`; the inner filter, nested as it is,
keeps `[d = 2]`, and `a = 1` went to the scan below it. -/
theorem refine_filter_conditions_witness :
    (∃ h1, refine rbDemo heapNestedScan 0 (.cons 1 (.cons 2 .nil .nil) .nil) = some h1 ∧
      ∀ fk ∈ (Forest.cons 0 (.cons 1 (.cons 2 .nil .nil) .nil) .nil).subtrees,
        ∀ x, heapNestedScan fk.1 = .Filter x →
        (∀ q ∈ fk.2.ptrs, (heapNestedScan q).isFilter = false) →
        ∃ x1, h1 fk.1 = .Filter x1 ∧ x1.Conditions.Sublist x.Conditions ∧
          ∀ c ∈ x.Conditions, c ∉ x1.Conditions →
            ∃ q ∈ fk.2.ptrs, ∃ s, heapNestedScan q = .IndexScan s ∧
              ∃ i, i < s.Index.Columns.length ∧ check s.Index i c = some true) ∧
    (∃ h1, refine rbDemo heapNestedScan 0 (.cons 1 (.cons 2 .nil .nil) .nil) = some h1 ∧
      h1 1 = .Filter ⟨[colEq "d" 2]⟩) :=
  ⟨refine_filter_conditions rbDemo heapNestedScan 0 (.cons 1 (.cons 2 .nil .nil) .nil)
      (by simp [Forest.ptrs]),
    ⟨_, rfl, rfl⟩⟩

theorem Accept_cons_of (rb : rangeBuilder) {p : Ptr} {k rest : Forest} {r r1 : refiner}
    {h h1 : Heap} {v w : Visited} (hv : Enter rb r h p = some v) (hf : v.flag = false)
    (hk : Accept rb k v.r v.heap = some (r1, h1))
    (hw : Leave rb r1 h1 v.out = some w) :
    Accept rb (.cons p k rest) r h = Accept rb rest w.r w.heap := by
  simp [Accept, hv, hf, hk, hw]

theorem Accept_nil (rb : rangeBuilder) (r : refiner) (h : Heap) :
    Accept rb .nil r h = some (r, h) := by
  simp [Accept]

/-- Visiting an index scan without children changes no node but the scan. -/
theorem Accept_scan_leaf (rb : rangeBuilder) (r : refiner) (h : Heap) (q : Ptr)
    (s : IndexScan) (hq : h q = .IndexScan s) :
    ∃ r1 h1, Accept rb (.cons q .nil .nil) r h = some (r1, h1) ∧
      ∀ p, p ≠ q → h1 p = h p := by
  obtain ⟨c1, g1, e1, -⟩ := buildIndexRange_spec rb { r with indexScan := some q } s
  obtain ⟨c2, g2, e2, -⟩ := buildIndexRange_spec rb
    { r with conditions := c1, indexScan := some q } { s with Ranges := g1 }
  have hE : Enter rb r h q = some ⟨q, false, { r with conditions := c1, indexScan := some q },
      Function.update h q (.IndexScan { s with Ranges := g1 })⟩ := by
    simp [Enter, hq, e1]
  have hL : Leave rb { r with conditions := c1, indexScan := some q }
      (Function.update h q (.IndexScan { s with Ranges := g1 })) q =
      some ⟨q, true, { r with conditions := c2, indexScan := some q },
        Function.update (Function.update h q (.IndexScan { s with Ranges := g1 })) q
          (.IndexScan { s with Ranges := g2 })⟩ := by
    simp [Leave, e2]
  refine ⟨{ r with conditions := c2, indexScan := some q },
    Function.update (Function.update h q (.IndexScan { s with Ranges := g1 })) q
      (.IndexScan { s with Ranges := g2 }), ?_, ?_⟩
  · rw [Accept_cons_of rb hE rfl (Accept_nil rb _ _) hL]
    exact Accept_nil rb _ _
  · intro p hp
    simp [Function.update_noteq hp]

/-- C4, the claim as stated fails: after refining `Limit 50` over an index
scan the bound of the limit node reads 0, the constant `Leave` passes to
`SetLimit`, and not 50. -/
theorem refine_limit_counterexample :
    ∃ h1, refine rbDemo (heapLimit 50) 0 (.cons 1 .nil .nil) = some h1 ∧
      h1 0 = .Limit ⟨0⟩ ∧ h1 0 ≠ .Limit ⟨50⟩ := by
  refine ⟨_, rfl, rfl, ?_⟩
  intro h
  have h2 : (⟨0⟩ : Limit) = ⟨50⟩ := Plan.Limit.inj h
  exact absurd (congrArg Limit.limit h2) (by decide)

/-- C4 as amended: leaving a `Limit` node calls `SetLimit` with the constant 0
whatever bound the node carries, and after refining a plan in which a `Limit`
wraps an index scan the limit node is the one `SetLimit 0` produced, so its
bound reads 0. -/
theorem refine_limit_fixed (rb : rangeBuilder) (h : Heap) (p q : Ptr) (x : Limit)
    (s : IndexScan) (hp : h p = .Limit x) (hq : h q = .IndexScan s) :
    (∀ r, Leave rb r h p =
      some ⟨p, true, r, Function.update h p (.Limit (x.SetLimit 0))⟩) ∧
    ∃ h1, refine rb h p (.cons q .nil .nil) = some h1 ∧
      h1 p = .Limit (x.SetLimit 0) ∧ h1 p = .Limit ⟨0⟩ := by
  have hpq : p ≠ q := by
    rintro rfl
    rw [hp] at hq
    exact Plan.noConfusion hq
  refine ⟨fun r => by simp [Leave, hp], ?_⟩
  obtain ⟨r1, h1, hA, hfr⟩ := Accept_scan_leaf rb ⟨[], [], none⟩ h q s hq
  have hp1 : h1 p = .Limit x := by rw [hfr p hpq, hp]
  refine ⟨Function.update h1 p (.Limit (x.SetLimit 0)), ?_, by simp, by simp [Limit.SetLimit]⟩
  have hE : Enter rb ⟨[], [], none⟩ h p = some ⟨p, false, ⟨[], [], none⟩, h⟩ := by
    simp [Enter, hp]
  have hL : Leave rb r1 h1 p =
      some ⟨p, true, r1, Function.update h1 p (.Limit (x.SetLimit 0))⟩ := by
    simp [Leave, hp1]
  unfold refine
  rw [Accept_cons_of rb hE rfl hA hL, Accept_nil]

/-- Witness of C4 as amended: `Limit 50` over a scan of the index on
`(a, b)`. -/
theorem refine_limit_fixed_witness :
    (∀ r, Leave rbDemo r (heapLimit 50) 0 =
      some ⟨0, true, r, Function.update (heapLimit 50) 0 (.Limit ((⟨50⟩ : Limit).SetLimit 0))⟩) ∧
    ∃ h1, refine rbDemo (heapLimit 50) 0 (.cons 1 .nil .nil) = some h1 ∧
      h1 0 = .Limit ((⟨50⟩ : Limit).SetLimit 0) ∧ h1 0 = .Limit ⟨0⟩ :=
  refine_limit_fixed rbDemo (heapLimit 50) 0 1 ⟨50⟩ scanAB rfl rfl

/-! ## The classifier: the remaining shapes -/

theorem checkList_eq_true_iff (idx : IndexInfo) (off : Nat) :
    ∀ l : List ExprNode,
      checkList idx off l = some true ↔ ∀ v ∈ l, check idx off v = some true
  | [] => by simp [checkList]
  | v :: vs => by
    have ih := checkList_eq_true_iff idx off vs
    cases hv : check idx off v with
    | none => simp [checkList, hv]
    | some b =>
      cases b with
      | false => simp [checkList, hv]
      | true => simp [checkList, hv, ih]

/-- C11: for every IN-list expression the classifier answers true exactly
when the expression carries no sub-query, the classifier answers true on the
probe expression, and it answers true on every element of the list; an
IN-list with a sub-query is rejected whatever the probe and the list are. -/
theorem check_in_list_iff (idx : IndexInfo) (columnOffset : Nat) (e : ExprNode)
    (list : List ExprNode) (sel : Option SubqueryExpr) :
    (check idx columnOffset (.PatternInExpr e list sel) = some true ↔
      sel = none ∧ check idx columnOffset e = some true ∧
        ∀ v ∈ list, check idx columnOffset v = some true) ∧
    (∀ q, check idx columnOffset (.PatternInExpr e list (some q)) = some false) := by
  refine ⟨?_, fun q => by simp [check]⟩
  cases sel with
  | some q => simp [check]
  | none =>
    cases he : check idx columnOffset e with
    | none => simp [check, he]
    | some b =>
      cases b with
      | false => simp [check, he]
      | true => simp [check, he, checkList_eq_true_iff]

/-- C12: against one index column the classifier accepts `L OR R` exactly when
it accepts `L` and accepts `R`; with the offset inside the index the three
answers are booleans and the answer on `L OR R` is their conjunction; and
`x = 1 OR y = 2` is rejected for column `x` although `x = 1` alone is
accepted. -/
theorem check_or (idx : IndexInfo) (columnOffset : Nat) (l r : ExprNode) :
    (check idx columnOffset (.BinaryOperationExpr .OrOr l r) = some true ↔
      check idx columnOffset l = some true ∧ check idx columnOffset r = some true) ∧
    (columnOffset < idx.Columns.length →
      ∃ bl br, check idx columnOffset l = some bl ∧ check idx columnOffset r = some br ∧
        check idx columnOffset (.BinaryOperationExpr .OrOr l r) = some (bl && br)) ∧
    (check idxX 0 xEq1OrYEq2 = some false ∧ check idxX 0 (colEq "x" 1) = some true) := by
  refine ⟨?_, ?_, by decide, by decide⟩
  · cases hl : check idx columnOffset l with
    | none => simp [check, hl]
    | some b => cases b <;> simp [check, hl]
  · intro hoff
    obtain ⟨bl, hl⟩ := check_total idx columnOffset hoff l
    obtain ⟨br, hr⟩ := check_total idx columnOffset hoff r
    refine ⟨bl, br, hl, hr, ?_⟩
    cases bl <;> simp [check, hl, hr]

/-- C13: parentheses and NOT are transparent to the classifier, and a unary
expression with any other operator is rejected whatever its operand is. -/
theorem check_paren_not (idx : IndexInfo) (columnOffset : Nat) (e : ExprNode) :
    check idx columnOffset (.ParenthesesExpr e) = check idx columnOffset e ∧
    check idx columnOffset (.UnaryOperationExpr .Not e) = check idx columnOffset e ∧
    (∀ op, op ≠ .Not →
      check idx columnOffset (.UnaryOperationExpr op e) = some false) := by
  refine ⟨by simp [check], by simp [check], ?_⟩
  intro op hop
  simp [check, hop]

/-- C14: the classifier rejects a literal, a bare column reference and every
node of a type it has no case for; it rejects a binary operation whose
operator is neither OR nor one of the six comparisons; and it rejects a
comparison both operands of which are not static. -/
theorem check_rejects_other (idx : IndexInfo) (columnOffset : Nat) :
    (∀ v, check idx columnOffset (.ValueExpr v) = some false) ∧
    (∀ table column, check idx columnOffset (.ColumnNameExpr table column) = some false) ∧
    (∀ kind static, check idx columnOffset (.OtherExpr kind static) = some false) ∧
    (∀ op l r, op ≠ .OrOr → ¬ op.isComparison →
      check idx columnOffset (.BinaryOperationExpr op l r) = some false) ∧
    (∀ op l r, op.isComparison → IsStatic l = false → IsStatic r = false →
      check idx columnOffset (.BinaryOperationExpr op l r) = some false) := by
  refine ⟨fun _ => by simp [check], fun _ _ => by simp [check],
    fun _ _ => by simp [check], ?_, ?_⟩
  · intro op l r hor hcmp
    unfold Op.isComparison at hcmp
    cases op <;> simp_all [check]
  · intro op l r hcmp hl hr
    rw [check_comparison idx columnOffset op l r hcmp]
    simp [hl, hr]

/-! ## Degenerate index, cost hook, index bounds -/

/-- C16: for an index scan whose index has no columns `buildIndexRange`
returns without touching the column list and leaves the refiner state and
the scan, so the active conditions and the ranges, as they were; `Enter` on
such a node only records the pointer and `Leave` changes nothing. -/
theorem buildIndexRange_no_columns (rb : rangeBuilder) (r : refiner) (h : Heap)
    (p : Ptr) (x : IndexScan) (hcols : x.Index.Columns = []) :
    buildIndexRange rb r x = some (r, x) ∧
    (h p = .IndexScan x →
      Enter rb r h p = some ⟨p, false, { r with indexScan := some p }, h⟩ ∧
      Leave rb r h p = some ⟨p, true, r, h⟩) := by
  have hb : ∀ r0 : refiner, buildIndexRange rb r0 x = some (r0, x) := by
    intro r0
    simp [buildIndexRange, hcols, columnLoop]
  refine ⟨hb r, fun hp => ⟨?_, ?_⟩⟩
  · have hu : Function.update h p (.IndexScan x) = h := by
      rw [← hp]
      exact Function.update_eq_self p h
    simp [Enter, hp, hb, hu]
  · have hu : Function.update h p (.IndexScan x) = h := by
      rw [← hp]
      exact Function.update_eq_self p h
    simp [Leave, hp, hb, hu]

/-- Witness of C16: the condition `a = 1` and a scan of an index without
columns. -/
theorem buildIndexRange_no_columns_witness :
    buildIndexRange rbDemo ⟨[colEq "a" 1], [], none⟩ scanNoColumns =
      some (⟨[colEq "a" 1], [], none⟩, scanNoColumns) ∧
    (heapNoColumns 0 = .IndexScan scanNoColumns →
      Enter rbDemo ⟨[colEq "a" 1], [], none⟩ heapNoColumns 0 =
        some ⟨0, false, ⟨[colEq "a" 1], [], some 0⟩, heapNoColumns⟩ ∧
      Leave rbDemo ⟨[colEq "a" 1], [], none⟩ heapNoColumns 0 =
        some ⟨0, true, ⟨[colEq "a" 1], [], none⟩, heapNoColumns⟩) :=
  buildIndexRange_no_columns rbDemo ⟨[colEq "a" 1], [], none⟩ heapNoColumns 0
    scanNoColumns rfl

/-- C17: the cost hook changes no plan: for every node, `Enter` returns the
node with `false` and `Leave` returns the node with `true`, both with the
heap, so every field of every node, exactly as it was, and `EstimateCost`
is 0. -/
theorem costEstimator_changes_nothing (c : costEstimator) (h : Heap) (p : Ptr) :
    c.Enter h p = ⟨p, false, c, h⟩ ∧ c.Leave h p = ⟨p, true, c, h⟩ ∧
    (c.Leave h p).heap p = h p ∧ EstimateCost h p = 0 := by
  have hl : c.Leave h p = ⟨p, true, c, h⟩ := by
    unfold costEstimator.Leave
    cases h p <;> rfl
  exact ⟨rfl, hl, by rw [hl], rfl⟩

/-- C20: no access to the index column list is out of range: `sortBypass`
returns for every recorded scan and every list of sort keys, `buildIndexRange`
returns for every condition list, every checker it creates has its offset
inside the index columns, and with such an offset the classifier and
`checkColumnExpr` return on every expression. -/
theorem index_access_in_bounds :
    (∀ indexScan p, ∃ out, sortBypass indexScan p = some out) ∧
    (∀ rb r p, (∃ out, buildIndexRange rb r p = some out) ∧
      ∀ e ∈ processed rb r p, e.1 < p.Index.Columns.length) ∧
    (∀ idx off, off < idx.Columns.length →
      ∀ e, (∃ b, check idx off e = some b) ∧ ∃ b, checkColumnExpr idx off e = some b) := by
  refine ⟨sortBypass_total, fun rb r p => ⟨?_, ?_⟩, fun idx off hoff e =>
    ⟨check_total idx off hoff e, checkColumnExpr_total idx off hoff e⟩⟩
  · obtain ⟨c1, g1, h1, -⟩ := buildIndexRange_spec rb r p
    exact ⟨_, h1⟩
  · intro e he
    have hb := columnTrace_bounds rb p.Index p.Index.Columns.length 0 r.conditions
      p.Ranges (by omega) e he
    omega

/-! ## What the column loop assigns to the ranges -/

/-- The inner loop folds exactly the pushable conditions into the range
points. -/
theorem condLoop_points (rb : rangeBuilder) (idx : IndexInfo) (i : Nat)
    (hi : i < idx.Columns.length) :
    ∀ (conds : List ExprNode) (rp : Option (List rangePoint)) (nc : List ExprNode),
      condLoop rb idx i conds rp nc =
        some (foldPoints rb (pushed idx i conds) rp, nc ++ leftover idx i conds)
  | [], rp, nc => by simp [condLoop, leftover, pushed, foldPoints]
  | c :: rest, rp, nc => by
    obtain ⟨b, hb⟩ := check_total idx i hi c
    cases b with
    | true =>
      simp only [condLoop, hb]
      rw [condLoop_points rb idx i hi rest]
      simp [leftover, pushed, foldPoints, List.filter_cons, hb]
    | false =>
      simp only [condLoop, hb]
      rw [condLoop_points rb idx i hi rest]
      simp [leftover, pushed, foldPoints, List.filter_cons, hb]

theorem columnLoop_succ (rb : rangeBuilder) (idx : IndexInfo) (k i : Nat)
    (conds : List ExprNode) (rg : Option (List IndexRange))
    (hi : i < idx.Columns.length) :
    columnLoop rb idx (k + 1) i conds rg =
      match foldPoints rb (pushed idx i conds) none with
      | none => some (leftover idx i conds, rg)
      | some v => columnLoop rb idx k (i + 1) (leftover idx i conds) (reassigned rb i rg v) := by
  have h := condLoop_points rb idx i hi conds none []
  simp only [List.nil_append] at h
  cases hf : foldPoints rb (pushed idx i conds) none with
  | none =>
    rw [hf] at h
    simp [columnLoop, h]
  | some v =>
    rw [hf] at h
    simp [columnLoop, h, reassigned]

theorem columnTrace_succ (rb : rangeBuilder) (idx : IndexInfo) (k i : Nat)
    (conds : List ExprNode) (rg : Option (List IndexRange))
    (hi : i < idx.Columns.length) :
    columnTrace rb idx (k + 1) i conds rg =
      (i, conds, rg) ::
        match foldPoints rb (pushed idx i conds) none with
        | none => []
        | some v => columnTrace rb idx k (i + 1) (leftover idx i conds) (reassigned rb i rg v) := by
  have h := condLoop_points rb idx i hi conds none []
  simp only [List.nil_append] at h
  cases hf : foldPoints rb (pushed idx i conds) none with
  | none =>
    rw [hf] at h
    simp [columnTrace, h]
  | some v =>
    rw [hf] at h
    simp [columnTrace, h, reassigned]

/-- One iteration of the column loop, read off the state at its start: nil
range points end the loop with the ranges as they were and the pushable
conditions gone; non-nil range points reassign the ranges and the loop goes
on from there, or ends there after the last column. -/
theorem columnTrace_step (rb : rangeBuilder) (idx : IndexInfo) :
    ∀ (k i : Nat) (conds : List ExprNode) (rg : Option (List IndexRange)),
      i + k ≤ idx.Columns.length →
      ∀ e ∈ columnTrace rb idx k i conds rg,
        (foldPoints rb (pushed idx e.1 e.2.1) none = none →
          columnLoop rb idx k i conds rg = some (leftover idx e.1 e.2.1, e.2.2)) ∧
        (∀ v, foldPoints rb (pushed idx e.1 e.2.1) none = some v →
          (e.1 + 1 < i + k →
            (e.1 + 1, leftover idx e.1 e.2.1, reassigned rb e.1 e.2.2 v) ∈
              columnTrace rb idx k i conds rg) ∧
          (e.1 + 1 = i + k →
            columnLoop rb idx k i conds rg =
              some (leftover idx e.1 e.2.1, reassigned rb e.1 e.2.2 v)))
  | 0, _, _, _, _ => by simp [columnTrace]
  | k + 1, i, conds, rg, hk => by
    have hi : i < idx.Columns.length := by omega
    intro e he
    rw [columnTrace_succ rb idx k i conds rg hi] at he
    rw [columnTrace_succ rb idx k i conds rg hi, columnLoop_succ rb idx k i conds rg hi]
    cases hf : foldPoints rb (pushed idx i conds) none with
    | none =>
      rw [hf] at he
      simp only [List.mem_singleton] at he
      subst he
      refine ⟨fun _ => rfl, fun v hv => ?_⟩
      simp only at hv
      rw [hf] at hv
      exact Option.noConfusion hv
    | some w =>
      rw [hf] at he
      simp only [List.mem_cons] at he
      rcases he with he | he
      · subst he
        refine ⟨fun hn => ?_, fun v hv => ?_⟩
        · simp only at hn
          rw [hf] at hn
          exact Option.noConfusion hn
        · simp only at hv
          rw [hf] at hv
          cases hv
          refine ⟨fun hlt => ?_, fun heq => ?_⟩
          · obtain ⟨j, rfl⟩ : ∃ j, k = j + 1 := ⟨k - 1, by omega⟩
            simp only
            rw [columnTrace_succ rb idx j (i + 1) _ _ (by omega)]
            exact List.mem_cons_of_mem _ (List.mem_cons_self _ _)
          · have hk0 : k = 0 := by omega
            subst hk0
            simp [columnLoop]
      · obtain ⟨h1, h2⟩ := columnTrace_step rb idx k (i + 1) _ _ (by omega) e he
        refine ⟨h1, fun v hv => ?_⟩
        obtain ⟨h3, h4⟩ := h2 v hv
        refine ⟨fun hlt => List.mem_cons_of_mem _ (h3 (by omega)), fun heq => h4 (by omega)⟩

/-! ## The recorded index scan and the sort bypass -/

theorem Keeps.self (h : Heap) : Keeps h h :=
  fun _ => ⟨fun _ hx => hx, fun _ => Iff.rfl⟩

theorem Keeps.comp {h h1 h2 : Heap} (a : Keeps h h1) (b : Keeps h1 h2) : Keeps h h2 :=
  fun q => ⟨fun x hx => (b q).1 x ((a q).1 x hx),
    fun s => ((a q).2 s).trans ((b q).2 s)⟩

theorem Keeps.update_filter {h : Heap} {p : Ptr} {x y : Filter} (hp : h p = .Filter x) :
    Keeps h (Function.update h p (.Filter y)) := by
  intro q
  by_cases hq : q = p
  · subst hq
    simp [hp]
  · simp [Function.update_noteq hq]

theorem Keeps.update_limit {h : Heap} {p : Ptr} {x y : Limit} (hp : h p = .Limit x) :
    Keeps h (Function.update h p (.Limit y)) := by
  intro q
  by_cases hq : q = p
  · subst hq
    simp [hp]
  · simp [Function.update_noteq hq]

theorem Enter_no_scan (rb : rangeBuilder) (r : refiner) (h : Heap) (p : Ptr)
    (hp : ∀ s, h p ≠ .IndexScan s) :
    ∃ r1, Enter rb r h p = some ⟨p, false, r1, h⟩ ∧ r1.indexScan = r.indexScan := by
  cases hh : h p with
  | IndexScan s => exact absurd hh (hp s)
  | Filter x => exact ⟨{ r with conditions := x.Conditions }, by simp [Enter, hh], rfl⟩
  | SortNode x => exact ⟨r, by simp [Enter, hh], rfl⟩
  | Limit x => exact ⟨r, by simp [Enter, hh], rfl⟩
  | Other k => exact ⟨r, by simp [Enter, hh], rfl⟩

theorem Leave_sort_no_scan (rb : rangeBuilder) (r : refiner) (h : Heap) (p : Ptr)
    (x : SortNode) (hp : h p = .SortNode x) (hr : r.indexScan = none) :
    Leave rb r h p = some ⟨p, true, r, h⟩ := by
  have hu : Function.update h p (.SortNode x) = h := by
    rw [← hp]
    exact Function.update_eq_self p h
  simp [Leave, hp, hr, deref, sortBypass, writeSort, hu]

theorem Leave_no_scan (rb : rangeBuilder) (r : refiner) (h : Heap) (p : Ptr)
    (hp : ∀ s, h p ≠ .IndexScan s) (hr : r.indexScan = none) :
    ∃ h1, Leave rb r h p = some ⟨p, true, r, h1⟩ ∧ Keeps h h1 := by
  cases hh : h p with
  | IndexScan s => exact absurd hh (hp s)
  | Filter x =>
    exact ⟨Function.update h p (.Filter ⟨r.conditions⟩), by simp [Leave, hh],
      Keeps.update_filter hh⟩
  | SortNode x => exact ⟨h, Leave_sort_no_scan rb r h p x hh hr, Keeps.self h⟩
  | Limit x =>
    exact ⟨Function.update h p (.Limit (x.SetLimit 0)), by simp [Leave, hh],
      Keeps.update_limit hh⟩
  | Other k => exact ⟨h, by simp [Leave, hh], Keeps.self h⟩

/-- While no index scan is recorded, the traversal of a forest without index
scans records none and changes neither a sort node nor an index scan. -/
theorem Accept_no_scan (rb : rangeBuilder) :
    ∀ (t : Forest) (r : refiner) (h : Heap), r.indexScan = none →
      (∀ q ∈ t.ptrs, ∀ s, h q ≠ .IndexScan s) →
      ∃ r1 h1, Accept rb t r h = some (r1, h1) ∧ r1.indexScan = none ∧ Keeps h h1
  | .nil, r, h, hr, _ => ⟨r, h, Accept_nil rb r h, hr, Keeps.self h⟩
  | .cons p k rest, r, h, hr, hns => by
    obtain ⟨r1, hE, hr1⟩ := Enter_no_scan rb r h p (hns p (by simp [Forest.ptrs]))
    obtain ⟨r2, h2, hA2, hr2, hk2⟩ := Accept_no_scan rb k r1 h (by rw [hr1, hr])
      (fun q hq => hns q (by simp [Forest.ptrs, hq]))
    have hp2 : ∀ s, h2 p ≠ .IndexScan s := fun s hs =>
      hns p (by simp [Forest.ptrs]) s (((hk2 p).2 s).mpr hs)
    obtain ⟨h3, hL, hk3⟩ := Leave_no_scan rb r2 h2 p hp2 hr2
    have hk23 := hk2.comp hk3
    obtain ⟨r4, h4, hA4, hr4, hk4⟩ := Accept_no_scan rb rest r2 h3 hr2
      (fun q hq s hs => hns q (by simp [Forest.ptrs, hq]) s (((hk23 q).2 s).mpr hs))
    refine ⟨r4, h4, ?_, hr4, hk23.comp hk4⟩
    rw [Accept_cons_of rb hE rfl hA2 hL]
    exact hA4

/-- C19, the claim as stated fails: under a node with two children, an index
scan on `(a, b)` and then the sort `ORDER BY a DESC` over a source that is no
index scan, leaving the sort sets `Bypass` on it and `Desc` on the scan of
the other branch. -/
theorem refine_sibling_scan_counterexample :
    ∃ h1, refine rbDemo heapSibling 0
        (.cons 1 .nil (.cons 2 (.cons 3 .nil .nil) .nil)) = some h1 ∧
      h1 2 = .SortNode { sortADesc with Bypass := true } ∧
      h1 1 = .IndexScan { scanAB with Desc := true } ∧
      heapSibling 3 = .Other 0 :=
  ⟨_, rfl, rfl, rfl, rfl⟩

/-! ## Running the refiner a second time -/

/-- The conditions the column loop leaves do not depend on the ranges it
starts with. -/
theorem columnLoop_conds_indep (rb : rangeBuilder) (idx : IndexInfo) :
    ∀ (k i : Nat) (conds : List ExprNode) (rg rg2 : Option (List IndexRange)),
      i + k ≤ idx.Columns.length →
      (columnLoop rb idx k i conds rg).map Prod.fst =
        (columnLoop rb idx k i conds rg2).map Prod.fst
  | 0, _, _, _, _, _ => by simp [columnLoop]
  | k + 1, i, conds, rg, rg2, hk => by
    rw [columnLoop_succ rb idx k i conds rg (by omega),
      columnLoop_succ rb idx k i conds rg2 (by omega)]
    cases foldPoints rb (pushed idx i conds) none with
    | none => rfl
    | some v => exact columnLoop_conds_indep rb idx k (i + 1) _ _ _ (by omega)

/-- `buildIndexRange` leaves the conditions `condsAfter` computes, and touches
nothing of the refiner but the conditions, nothing of the scan but the
ranges. -/
theorem buildIndexRange_condsAfter (rb : rangeBuilder) (r : refiner) (p : IndexScan) :
    ∃ rg1, buildIndexRange rb r p =
      some ({ r with conditions := condsAfter rb p.Index r.conditions },
            { p with Ranges := rg1 }) := by
  obtain ⟨c1, g1, h1, -, -⟩ := columnLoop_spec rb p.Index p.Index.Columns.length 0
    r.conditions p.Ranges (by omega)
  have hi := columnLoop_conds_indep rb p.Index p.Index.Columns.length 0 r.conditions
    p.Ranges none (by omega)
  rw [h1] at hi
  have hc : condsAfter rb p.Index r.conditions = c1 := by
    unfold condsAfter
    cases h2 : columnLoop rb p.Index p.Index.Columns.length 0 r.conditions none with
    | none => simp [h2] at hi
    | some out =>
      rw [h2] at hi
      simp only [Option.map_some', Option.some.injEq] at hi
      exact hi.symm
  exact ⟨g1, by simp [buildIndexRange, h1, hc]⟩

theorem condsAfter_sublist (rb : rangeBuilder) (idx : IndexInfo) (conds : List ExprNode) :
    (condsAfter rb idx conds).Sublist conds := by
  obtain ⟨c1, g1, h1, hsub, -⟩ := columnLoop_spec rb idx idx.Columns.length 0
    conds none (by omega)
  simp [condsAfter, h1, hsub]

/-- What `buildIndexRange` leaves holds nothing pushable to the first
column. -/
theorem condsAfter_settled (rb : rangeBuilder) (idx : IndexInfo) (conds : List ExprNode) :
    Settled idx (condsAfter rb idx conds) := by
  intro hpos c hc hchk
  obtain ⟨c1, g1, h1, hsub, hiff⟩ := columnLoop_spec rb idx idx.Columns.length 0
    conds none (by omega)
  have hca : condsAfter rb idx conds = c1 := by simp [condsAfter, h1]
  rw [hca] at hc
  have hmem : c ∈ conds := hsub.subset hc
  obtain ⟨k, hk⟩ : ∃ k, idx.Columns.length = k + 1 := ⟨idx.Columns.length - 1, by omega⟩
  have hhead : (0, conds, (none : Option (List IndexRange))) ∈
      columnTrace rb idx idx.Columns.length 0 conds none := by
    rw [hk, columnTrace_succ rb idx k 0 conds none hpos]
    exact List.mem_cons_self _ _
  exact ((hiff c hmem).mpr ⟨_, hhead, hmem, hchk⟩) hc

/-- On conditions none of which is pushable to the first column the column
loop changes neither the conditions nor the ranges. -/
theorem columnLoop_of_settled (rb : rangeBuilder) (idx : IndexInfo)
    (conds : List ExprNode) (rg : Option (List IndexRange)) (hs : Settled idx conds) :
    columnLoop rb idx idx.Columns.length 0 conds rg = some (conds, rg) := by
  by_cases hpos : 0 < idx.Columns.length
  · obtain ⟨k, hk⟩ : ∃ k, idx.Columns.length = k + 1 := ⟨idx.Columns.length - 1, by omega⟩
    have hhead : (0, conds, rg) ∈ columnTrace rb idx idx.Columns.length 0 conds rg := by
      rw [hk, columnTrace_succ rb idx k 0 conds rg hpos]
      exact List.mem_cons_self _ _
    exact (columnLoop_stops rb idx idx.Columns.length 0 conds rg (by omega) _ hhead
      (hs hpos)).1
  · have h0 : idx.Columns.length = 0 := by omega
    rw [h0]
    rfl

theorem condsAfter_of_settled (rb : rangeBuilder) (idx : IndexInfo)
    (conds : List ExprNode) (hs : Settled idx conds) : condsAfter rb idx conds = conds := by
  simp [condsAfter, columnLoop_of_settled rb idx conds none hs]

theorem Settled.sublist {idx : IndexInfo} {conds conds1 : List ExprNode}
    (hs : Settled idx conds) (hsub : conds1.Sublist conds) : Settled idx conds1 :=
  fun hpos c hc => hs hpos c (hsub.subset hc)

/-- A second run of `buildIndexRange` on what a first run left changes
nothing. -/
theorem buildIndexRange_twice (rb : rangeBuilder) (r r1 : refiner) (p p1 : IndexScan)
    (h : buildIndexRange rb r p = some (r1, p1)) :
    buildIndexRange rb r1 p1 = some (r1, p1) := by
  obtain ⟨rg1, h1⟩ := buildIndexRange_condsAfter rb r p
  rw [h1] at h
  cases h
  have hs : Settled p.Index (condsAfter rb p.Index r.conditions) :=
    condsAfter_settled rb p.Index r.conditions
  simp [buildIndexRange, columnLoop_of_settled rb p.Index _ rg1 hs]

theorem deref_eq_some {h : Heap} {i : Option Ptr} {s : IndexScan}
    (hd : deref h i = some s) : ∃ t, i = some t ∧ h t = .IndexScan s := by
  cases i with
  | none => simp [deref] at hd
  | some t =>
    refine ⟨t, rfl, ?_⟩
    cases ht : h t with
    | IndexScan s0 =>
      simp only [deref, ht, Option.some.injEq] at hd
      rw [hd]
    | _ => simp [deref, ht] at hd

theorem writeSort_none (h : Heap) (i : Option Ptr) (p : Ptr) (x : SortNode) :
    writeSort h i none p x = Function.update h p (.SortNode x) := by
  cases i <;> rfl

/-- Two heaps of the same shape give the recorded pointer scans of the same
index, or both none. -/
theorem deref_same_index {sh : Ptr → Shape} {h g : Heap} (hs : Shaped sh h)
    (gs : Shaped sh g) (i : Option Ptr) :
    (deref h i).map (fun s => s.Index) = (deref g i).map (fun s => s.Index) := by
  cases i with
  | none => rfl
  | some t =>
    have h1 := hs t
    have h2 := gs t
    unfold deref
    cases ht : h t <;> cases gt : g t <;> rw [ht] at h1 <;> rw [gt] at h2 <;>
      rw [← h2] at h1 <;> simp_all [Plan.shape]

/-- Leaving a sort node changes, besides the sort node, at most the recorded
index scan. -/
theorem Leave_sort_frame (sh : Ptr → Shape) (r : refiner) (h : Heap) (p : Ptr)
    (x : SortNode) (hs : Shaped sh h) (hp : h p = .SortNode x) :
    ∃ scan x1, sortBypass (deref h r.indexScan) x = some (scan, x1) ∧
      Shaped sh (writeSort h r.indexScan scan p x1) ∧
      (∀ q, q ≠ p → NonScan sh q → writeSort h r.indexScan scan p x1 q = h q) ∧
      writeSort h r.indexScan scan p x1 p = .SortNode x1 := by
  have hshp : sh p = .other := by
    have := hs p
    rw [hp] at this
    exact this.symm
  cases hd : deref h r.indexScan with
  | none =>
    refine ⟨none, x, by simp [sortBypass], ?_, ?_, ?_⟩
    · rw [writeSort_none]
      exact hs.update p _ (by simp [Plan.shape, hshp])
    · intro q hq _
      rw [writeSort_none]
      simp [Function.update_noteq hq]
    · rw [writeSort_none]
      simp
  | some s =>
    obtain ⟨t, hi, ht⟩ := deref_eq_some hd
    obtain ⟨s1, x1, h1, hidx⟩ := sortBypass_some_index s x
    have hsht : sh t = .scan s.Index := by
      have := hs t
      rw [ht] at this
      exact this.symm
    refine ⟨some s1, x1, h1, ?_, ?_, ?_⟩
    · rw [hi]
      exact (hs.update t (.IndexScan s1) (by simp [Plan.shape, hsht, hidx])).update p _
        (by simp [Plan.shape, hshp])
    · intro q hq hns
      have hqt : q ≠ t := by
        rintro rfl
        exact hns _ hsht
      rw [hi]
      simp [writeSort, Function.update_noteq hq, Function.update_noteq hqt]
    · rw [hi]
      simp [writeSort]

theorem nonScan_of_filter {sh : Ptr → Shape} {q : Ptr} (h : sh q = .filter) :
    NonScan sh q := by
  intro idx hq
  rw [h] at hq
  exact Shape.noConfusion hq

/-- `Enter` as a function of the shape of the node: what it records, what it
makes of the conditions, and the nodes it leaves alone. -/
theorem Enter_fun (rb : rangeBuilder) (sh : Ptr → Shape) (r : refiner) (h : Heap)
    (p : Ptr) (hs : Shaped sh h) :
    ∃ v, Enter rb r h p = some v ∧ v.out = p ∧ v.flag = false ∧ Shaped sh v.heap ∧
      (∀ q, NonScan sh q → v.heap q = h q) ∧
      v.r.indexScan = enterScan (sh p) p r.indexScan ∧
      (∀ x, h p = .Filter x → v.r.conditions = x.Conditions) ∧
      (sh p ≠ .filter → v.r.conditions = shapeConds rb (sh p) r.conditions) := by
  have hsp := hs p
  cases hp : h p with
  | Filter x =>
    rw [hp] at hsp
    refine ⟨⟨p, false, { r with conditions := x.Conditions }, h⟩, by simp [Enter, hp],
      rfl, rfl, hs, fun _ _ => rfl, ?_, ?_, ?_⟩
    · rw [← hsp]
      rfl
    · intro y hy
      cases hy
      rfl
    · intro hne
      exact absurd hsp.symm hne
  | IndexScan x =>
    rw [hp] at hsp
    obtain ⟨rg1, h1⟩ := buildIndexRange_condsAfter rb { r with indexScan := some p } x
    refine ⟨⟨p, false,
        { r with conditions := condsAfter rb x.Index r.conditions, indexScan := some p },
        Function.update h p (.IndexScan { x with Ranges := rg1 })⟩,
      by simp [Enter, hp, h1], rfl, rfl, hs.update p _ hsp, ?_, ?_, by simp, ?_⟩
    · intro q hq
      have hqp : q ≠ p := by
        rintro rfl
        exact hq _ hsp.symm
      simp [Function.update_noteq hqp]
    · rw [← hsp]
      rfl
    · intro _
      rw [← hsp]
      rfl
  | SortNode x =>
    rw [hp] at hsp
    refine ⟨⟨p, false, r, h⟩, by simp [Enter, hp], rfl, rfl, hs, fun _ _ => rfl, ?_,
      by simp, ?_⟩
    · rw [← hsp]
      rfl
    · intro _
      rw [← hsp]
      rfl
  | Limit x =>
    rw [hp] at hsp
    refine ⟨⟨p, false, r, h⟩, by simp [Enter, hp], rfl, rfl, hs, fun _ _ => rfl, ?_,
      by simp, ?_⟩
    · rw [← hsp]
      rfl
    · intro _
      rw [← hsp]
      rfl
  | Other k =>
    rw [hp] at hsp
    refine ⟨⟨p, false, r, h⟩, by simp [Enter, hp], rfl, rfl, hs, fun _ _ => rfl, ?_,
      by simp, ?_⟩
    · rw [← hsp]
      rfl
    · intro _
      rw [← hsp]
      rfl

/-- `Leave` as a function of the shape of the node: what it makes of the
conditions, the node it writes, and the nodes it leaves alone. -/
theorem Leave_fun (rb : rangeBuilder) (sh : Ptr → Shape) (r : refiner) (h : Heap)
    (p : Ptr) (hs : Shaped sh h) :
    ∃ w, Leave rb r h p = some w ∧ Shaped sh w.heap ∧
      (∀ q, q ≠ p → NonScan sh q → w.heap q = h q) ∧
      w.r.indexScan = r.indexScan ∧
      w.r.conditions = shapeConds rb (sh p) r.conditions ∧
      (NonScan sh p → w.heap p = leaveNode (h p) r.conditions (deref h r.indexScan)) := by
  have hsp := hs p
  cases hp : h p with
  | Filter x =>
    rw [hp] at hsp
    refine ⟨⟨p, true, r, Function.update h p (.Filter ⟨r.conditions⟩)⟩,
      by simp [Leave, hp], hs.update p _ hsp, ?_, rfl, ?_, ?_⟩
    · intro q hq _
      simp [Function.update_noteq hq]
    · rw [← hsp]
      rfl
    · intro _
      simp [leaveNode]
  | IndexScan x =>
    rw [hp] at hsp
    obtain ⟨rg1, h1⟩ := buildIndexRange_condsAfter rb r x
    refine ⟨⟨p, true, { r with conditions := condsAfter rb x.Index r.conditions },
        Function.update h p (.IndexScan { x with Ranges := rg1 })⟩,
      by simp [Leave, hp, h1], hs.update p _ hsp, ?_, rfl, ?_, ?_⟩
    · intro q hq _
      simp [Function.update_noteq hq]
    · rw [← hsp]
      rfl
    · intro hns
      exact absurd hsp.symm (hns _)
  | SortNode x =>
    obtain ⟨scan, x1, h1, hsh, hfr, hat⟩ := Leave_sort_frame sh r h p x hs hp
    rw [hp] at hsp
    refine ⟨⟨p, true, r, writeSort h r.indexScan scan p x1⟩, by simp [Leave, hp, h1],
      hsh, hfr, rfl, ?_, ?_⟩
    · rw [← hsp]
      rfl
    · intro _
      simp [leaveNode, h1, hat]
  | Limit x =>
    rw [hp] at hsp
    refine ⟨⟨p, true, r, Function.update h p (.Limit (x.SetLimit 0))⟩,
      by simp [Leave, hp], hs.update p _ hsp, ?_, rfl, ?_, ?_⟩
    · intro q hq _
      simp [Function.update_noteq hq]
    · rw [← hsp]
      rfl
    · intro _
      simp [leaveNode]
  | Other k =>
    rw [hp] at hsp
    refine ⟨⟨p, true, r, h⟩, by simp [Leave, hp], hs, fun _ _ _ => rfl, rfl, ?_, ?_⟩
    · rw [← hsp]
      rfl
    · intro _
      simp [leaveNode, hp]

theorem shapeConds_sublist (rb : rangeBuilder) (s : Shape) (conds : List ExprNode) :
    (shapeConds rb s conds).Sublist conds := by
  cases s with
  | scan idx => exact condsAfter_sublist rb idx conds
  | filter => exact List.Sublist.refl _
  | other => exact List.Sublist.refl _

theorem shapeConds_settled (rb : rangeBuilder) (idx : IndexInfo) (conds : List ExprNode) :
    Settled idx (shapeConds rb (.scan idx) conds) :=
  condsAfter_settled rb idx conds

theorem shapeConds_of_settled (rb : rangeBuilder) (s : Shape) (conds : List ExprNode)
    (hs : ∀ idx, s = .scan idx → Settled idx conds) : shapeConds rb s conds = conds := by
  cases s with
  | scan idx => exact condsAfter_of_settled rb idx conds (hs idx rfl)
  | filter => rfl
  | other => rfl

theorem forestConds_sublist (rb : rangeBuilder) (sh : Ptr → Shape) :
    ∀ (t : Forest) (conds : List ExprNode), (forestConds rb sh t conds).Sublist conds
  | .nil, _ => List.Sublist.refl _
  | .cons p k rest, conds => by
    simp only [forestConds]
    exact (((forestConds_sublist rb sh rest _).trans (shapeConds_sublist rb _ _)).trans
      (forestConds_sublist rb sh k _)).trans (shapeConds_sublist rb _ _)

/-- After the traversal of a forest the conditions hold nothing pushable to
the first column of any index scan of the forest. -/
theorem forestConds_settled (rb : rangeBuilder) (sh : Ptr → Shape) :
    ∀ (t : Forest) (conds : List ExprNode),
      SettledFor sh t.ptrs (forestConds rb sh t conds)
  | .nil, _ => by
    intro q hq
    simp [Forest.ptrs] at hq
  | .cons p k rest, conds => by
    intro q hq idx hidx
    simp only [Forest.ptrs, List.mem_cons, List.mem_append] at hq
    simp only [forestConds]
    rcases hq with hq | hq | hq
    · subst hq
      have h1 : Settled idx (shapeConds rb (sh q)
          (forestConds rb sh k (shapeConds rb (sh q) conds))) := by
        rw [hidx]
        exact shapeConds_settled rb idx _
      exact h1.sublist (forestConds_sublist rb sh rest _)
    · have h1 := forestConds_settled rb sh k (shapeConds rb (sh p) conds) q hq idx hidx
      exact h1.sublist ((forestConds_sublist rb sh rest _).trans (shapeConds_sublist rb _ _))
    · exact forestConds_settled rb sh rest _ q hq idx hidx

/-- On conditions already settled for every index scan of a forest, the
traversal of the forest leaves the conditions as they are. -/
theorem forestConds_of_settled (rb : rangeBuilder) (sh : Ptr → Shape) :
    ∀ (t : Forest) (conds : List ExprNode), SettledFor sh t.ptrs conds →
      forestConds rb sh t conds = conds
  | .nil, _, _ => rfl
  | .cons p k rest, conds, hs => by
    have hp : shapeConds rb (sh p) conds = conds :=
      shapeConds_of_settled rb (sh p) conds
        (fun idx hidx => hs p (by simp [Forest.ptrs]) idx hidx)
    have hk : forestConds rb sh k conds = conds :=
      forestConds_of_settled rb sh k conds
        (fun q hq => hs q (by simp [Forest.ptrs, hq]))
    have hr : forestConds rb sh rest conds = conds :=
      forestConds_of_settled rb sh rest conds
        (fun q hq => hs q (by simp [Forest.ptrs, hq]))
    simp only [forestConds, hp, hk, hr]

/-- The traversal of a forest as a function of the shapes: it returns, keeps
the shape of the heap, leaves alone every node outside the forest that is no
index scan, and over a forest without `Filter` nodes makes of the conditions
what `forestConds` computes. -/
theorem Accept_fun (rb : rangeBuilder) (sh : Ptr → Shape) :
    ∀ (t : Forest) (r : refiner) (h : Heap), Shaped sh h →
      ∃ r1 h1, Accept rb t r h = some (r1, h1) ∧ Shaped sh h1 ∧
        (∀ q, NonScan sh q → q ∉ t.ptrs → h1 q = h q) ∧
        ((∀ q ∈ t.ptrs, sh q ≠ .filter) →
          r1.conditions = forestConds rb sh t r.conditions)
  | .nil, r, h, hs => ⟨r, h, Accept_nil rb r h, hs, fun _ _ _ => rfl, fun _ => rfl⟩
  | .cons p k rest, r, h, hs => by
    obtain ⟨v, hv, hout, hflag, hsh1, hfr1, -, -, hc1⟩ := Enter_fun rb sh r h p hs
    obtain ⟨r2, h2, hA2, hsh2, hfr2, hc2⟩ := Accept_fun rb sh k v.r v.heap hsh1
    obtain ⟨w, hw, hsh3, hfr3, -, hc3, -⟩ := Leave_fun rb sh r2 h2 p hsh2
    obtain ⟨r4, h4, hA4, hsh4, hfr4, hc4⟩ := Accept_fun rb sh rest w.r w.heap hsh3
    refine ⟨r4, h4, ?_, hsh4, ?_, ?_⟩
    · rw [Accept_cons_of rb hv hflag hA2 (by rw [hout]; exact hw)]
      exact hA4
    · intro q hq hmem
      simp only [Forest.ptrs, List.mem_cons, List.mem_append, not_or] at hmem
      rw [hfr4 q hq hmem.2.2, hfr3 q hmem.1 hq, hfr2 q hq hmem.2.1, hfr1 q hq]
    · intro hnf
      have hp : sh p ≠ .filter := hnf p (by simp [Forest.ptrs])
      rw [hc4 (fun q hq => hnf q (by simp [Forest.ptrs, hq])), hc3,
        hc2 (fun q hq => hnf q (by simp [Forest.ptrs, hq])), hc1 hp]
      rfl

/-- What `sortBypass` made of a sort node, it makes of it again on any scan of
the same index. -/
theorem sortBypass_second (s s2 : IndexScan) (x x1 : SortNode) (a : Option IndexScan)
    (h : sortBypass (some s) x = some (a, x1)) (hidx : s2.Index = s.Index) :
    ∃ a2, sortBypass (some s2) x1 = some (a2, x1) := by
  by_cases hkeys : ∀ k (hk : k < x.ByItems.length),
      keyMatches s.Index k (x.ByItems.get ⟨k, hk⟩)
  · have hkeys2 : ∀ k (hk : k < x.ByItems.length),
        keyMatches s2.Index k (x.ByItems.get ⟨k, hk⟩) := by
      rw [hidx]
      exact hkeys
    rw [sortBypass_of_match s x hkeys] at h
    by_cases hlen : x.ByItems.length > s.Index.Columns.length
    · rw [if_pos hlen] at h
      cases h
      rw [sortBypass_of_match s2 x hkeys2, hidx, if_pos hlen]
      exact ⟨_, rfl⟩
    · rw [if_neg hlen] at h
      by_cases hmix : (x.ByItems.any (fun v => v.Desc) &&
          x.ByItems.any (fun v => !v.Desc)) = true
      · rw [if_pos hmix] at h
        cases h
        rw [sortBypass_of_match s2 x hkeys2, hidx, if_neg hlen, if_pos hmix]
        exact ⟨_, rfl⟩
      · rw [if_neg hmix] at h
        cases h
        rw [sortBypass_of_match s2 { x with Bypass := true } hkeys2, hidx, if_neg hlen,
          if_neg hmix]
        exact ⟨_, rfl⟩
  · have hkeys2 : ¬ ∀ k (hk : k < x.ByItems.length),
        keyMatches s2.Index k (x.ByItems.get ⟨k, hk⟩) := by
      rw [hidx]
      exact hkeys
    rw [sortBypass_of_not_match s x hkeys] at h
    cases h
    exact ⟨_, sortBypass_of_not_match s2 x hkeys2⟩

/-- Writing a node on leave a second time, with the same conditions for a
`Filter` and a recorded scan of the same index, gives the node of the first
time. -/
theorem leaveNode_again (n : Plan) (c c2 : List ExprNode) (d d2 : Option IndexScan)
    (hc : ∀ x, n = .Filter x → c2 = c)
    (hd : d.map (fun s => s.Index) = d2.map (fun s => s.Index)) :
    leaveNode (leaveNode n c d) c2 d2 = leaveNode n c d := by
  cases n with
  | Filter x => simp [leaveNode, hc x rfl]
  | IndexScan s => rfl
  | Limit x => rfl
  | Other k => rfl
  | SortNode x =>
    cases d with
    | none =>
      cases d2 with
      | none => simp [leaveNode, sortBypass]
      | some s2 => simp at hd
    | some s =>
      cases d2 with
      | none => simp at hd
      | some s2 =>
        simp only [Option.map_some', Option.some.injEq] at hd
        obtain ⟨s1, x1, h1, -⟩ := sortBypass_some_index s x
        obtain ⟨a2, h2⟩ := sortBypass_second s s2 x x1 _ h1 hd.symm
        simp [leaveNode, h1, h2]

/-- A second traversal of a forest with distinct nodes, run on a heap that
agrees with the result of a first traversal on the nodes of the forest that
are no index scans, changes no node that is no index scan; it records the
same scan as the first, and ends with the same conditions when the forest
holds a `Filter`. -/
theorem Accept_second (rb : rangeBuilder) (sh : Ptr → Shape) :
    ∀ (t : Forest) (r ρ : refiner) (h g : Heap) (r' : refiner) (h' : Heap),
      Shaped sh h → Shaped sh g → t.ptrs.Nodup →
      Accept rb t r h = some (r', h') → ρ.indexScan = r.indexScan →
      (∀ q ∈ t.ptrs, NonScan sh q → g q = h' q) →
      ∃ ρ' g', Accept rb t ρ g = some (ρ', g') ∧ Shaped sh g' ∧
        ρ'.indexScan = r'.indexScan ∧ (∀ q, NonScan sh q → g' q = g q) ∧
        ((∃ q ∈ t.ptrs, sh q = .filter) → ρ'.conditions = r'.conditions)
  | .nil, r, ρ, h, g, r', h', _, gs, _, hA, hρ, _ => by
    rw [Accept_nil] at hA
    cases hA
    refine ⟨ρ, g, Accept_nil rb ρ g, gs, hρ, fun _ _ => rfl, ?_⟩
    rintro ⟨q, hq, -⟩
    simp [Forest.ptrs] at hq
  | .cons p k rest, r, ρ, h, g, r', h', hs, gs, hnd, hA, hρ, hg => by
    obtain ⟨v, hv, hout, hflag, hsh1, hfr1, hi1, hload1, hc1⟩ := Enter_fun rb sh r h p hs
    obtain ⟨r2, h2, hA2, hsh2, hfr2, hcf2⟩ := Accept_fun rb sh k v.r v.heap hsh1
    obtain ⟨w, hw, hsh3, hfr3, hi3, hc3, hnode3⟩ := Leave_fun rb sh r2 h2 p hsh2
    obtain ⟨r4, h4, hA4, hsh4, hfr4, hcf4⟩ := Accept_fun rb sh rest w.r w.heap hsh3
    have hAll : Accept rb (.cons p k rest) r h = some (r4, h4) := by
      rw [Accept_cons_of rb hv hflag hA2 (by rw [hout]; exact hw)]
      exact hA4
    have e1 : r4 = r' ∧ h4 = h' := by
      rw [hAll] at hA
      simpa using hA
    obtain ⟨rfl, rfl⟩ := e1
    simp only [Forest.ptrs, List.nodup_cons, List.mem_append, not_or,
      List.nodup_append] at hnd
    obtain ⟨⟨hpk, hpr⟩, hndk, hndr, hdisj⟩ := hnd
    have hmp : p ∈ (Forest.cons p k rest).ptrs := by simp [Forest.ptrs]
    have hmk : ∀ q ∈ k.ptrs, q ∈ (Forest.cons p k rest).ptrs :=
      fun q hq => by simp [Forest.ptrs, hq]
    have hmr : ∀ q ∈ rest.ptrs, q ∈ (Forest.cons p k rest).ptrs :=
      fun q hq => by simp [Forest.ptrs, hq]
    obtain ⟨vB, hvB, houtB, hflagB, gsh1, gfr1, gi1, gload1, gc1⟩ :=
      Enter_fun rb sh ρ g p gs
    have hypk : ∀ q ∈ k.ptrs, NonScan sh q → vB.heap q = h2 q := by
      intro q hq hns
      have hqp : q ≠ p := by
        rintro rfl
        exact hpk hq
      have hqr : q ∉ rest.ptrs := fun hm => hdisj hq hm
      rw [gfr1 q hns, hg q (hmk q hq) hns, hfr4 q hns hqr, hfr3 q hqp hns]
    have hik : vB.r.indexScan = v.r.indexScan := by rw [gi1, hi1, hρ]
    obtain ⟨ρ2, g2, gA2, gsh2, gi2, gfr2, gcond2⟩ :=
      Accept_second rb sh k v.r vB.r v.heap vB.heap r2 h2 hsh1 gsh1 hndk hA2 hik hypk
    obtain ⟨wB, hwB, gsh3, gfr3, gi3, gc3, gnode3⟩ := Leave_fun rb sh ρ2 g2 p gsh2
    have hg2p : NonScan sh p →
        g2 p = leaveNode (h2 p) r2.conditions (deref h2 r2.indexScan) := by
      intro hns
      rw [gfr2 p hns, gfr1 p hns, hg p hmp hns, hfr4 p hns hpr, hnode3 hns]
    have star : sh p = .filter → ρ2.conditions = r2.conditions := by
      intro hf
      have hns := nonScan_of_filter hf
      obtain ⟨x, hx⟩ := shape_filter hs hf
      obtain ⟨y, hy⟩ := shape_filter hsh2 hf
      have gp : g p = .Filter ⟨r2.conditions⟩ := by
        rw [hg p hmp hns, hfr4 p hns hpr, hnode3 hns, hy]
        rfl
      have hvBc : vB.r.conditions = r2.conditions := gload1 _ gp
      by_cases hkf : ∃ q ∈ k.ptrs, sh q = .filter
      · exact gcond2 hkf
      · have hkf2 : ∀ q ∈ k.ptrs, sh q ≠ .filter := fun q hq hqf => hkf ⟨q, hq, hqf⟩
        obtain ⟨ρ2', g2', e, -, -, hcfB⟩ := Accept_fun rb sh k vB.r vB.heap gsh1
        rw [gA2] at e
        cases e
        rw [hcfB hkf2, hvBc, hcf2 hkf2]
        exact forestConds_of_settled rb sh k _ (forestConds_settled rb sh k _)
    have hpB : NonScan sh p → wB.heap p = g2 p := by
      intro hns
      rw [gnode3 hns, hg2p hns]
      apply leaveNode_again
      · intro x hx
        exact star (shape_of_filter hsh2 hx)
      · rw [gi2]
        exact deref_same_index hsh2 gsh2 _
    have hypr : ∀ q ∈ rest.ptrs, NonScan sh q → wB.heap q = h4 q := by
      intro q hq hns
      have hqp : q ≠ p := by
        rintro rfl
        exact hpr hq
      rw [gfr3 q hqp hns, gfr2 q hns, gfr1 q hns]
      exact hg q (hmr q hq) hns
    have hir : wB.r.indexScan = w.r.indexScan := by rw [gi3, hi3, gi2]
    obtain ⟨ρ4, g4, gA4, gsh4, gi4, gfr4, gcond4⟩ :=
      Accept_second rb sh rest w.r wB.r w.heap wB.heap r4 h4 hsh3 gsh3 hndr hA4 hir hypr
    refine ⟨ρ4, g4, ?_, gsh4, gi4, ?_, ?_⟩
    · rw [Accept_cons_of rb hvB hflagB gA2 (by rw [houtB]; exact hwB)]
      exact gA4
    · intro q hns
      rw [gfr4 q hns]
      by_cases hqp : q = p
      · subst hqp
        rw [hpB hns, gfr2 q hns, gfr1 q hns]
      · rw [gfr3 q hqp hns, gfr2 q hns, gfr1 q hns]
    · rintro ⟨q, hq, hqf⟩
      by_cases hrf : ∃ q ∈ rest.ptrs, sh q = .filter
      · exact gcond4 hrf
      · have hrf2 : ∀ q ∈ rest.ptrs, sh q ≠ .filter := fun q hq hqf => hrf ⟨q, hq, hqf⟩
        have hconds2 : ρ2.conditions = r2.conditions := by
          by_cases hpf : sh p = .filter
          · exact star hpf
          · simp only [Forest.ptrs, List.mem_cons, List.mem_append] at hq
            rcases hq with hq | hq | hq
            · subst hq
              exact absurd hqf hpf
            · exact gcond2 ⟨q, hq, hqf⟩
            · exact absurd hqf (hrf2 q hq)
        obtain ⟨ρ4', g4', e, -, -, hcfB⟩ := Accept_fun rb sh rest wB.r wB.heap gsh3
        rw [gA4] at e
        cases e
        rw [hcfB hrf2, gc3, hconds2, hcf4 hrf2, hc3]

/-- Visiting a leaf index scan on which `buildIndexRange` changes nothing
changes nothing but the recorded scan. -/
theorem Accept_scan_leaf_fixed (rb : rangeBuilder) (r : refiner) (h : Heap) (q : Ptr)
    (s : IndexScan) (hq : h q = .IndexScan s)
    (hb : buildIndexRange rb { r with indexScan := some q } s =
      some ({ r with indexScan := some q }, s)) :
    Accept rb (.cons q .nil .nil) r h = some ({ r with indexScan := some q }, h) := by
  have hu : Function.update h q (.IndexScan s) = h := by
    rw [← hq]
    exact Function.update_eq_self q h
  have hE : Enter rb r h q = some ⟨q, false, { r with indexScan := some q }, h⟩ := by
    simp [Enter, hq, hb, hu]
  have hL : Leave rb { r with indexScan := some q } h q =
      some ⟨q, true, { r with indexScan := some q }, h⟩ := by
    simp [Leave, hq, hb, hu]
  rw [Accept_cons_of rb hE rfl (Accept_nil rb _ _) hL]
  exact Accept_nil rb _ _

/-- Refining `Filter` over a leaf index scan: the result, and a second
refinement of the result, which changes nothing. -/
theorem refine_filter_scan_twice (rb : rangeBuilder) (h : Heap) (p q : Ptr) (x : Filter)
    (s : IndexScan) (hp : h p = .Filter x) (hq : h q = .IndexScan s) :
    ∃ h1, refine rb h p (.cons q .nil .nil) = some h1 ∧
      refine rb h1 p (.cons q .nil .nil) = some h1 := by
  have hpq : p ≠ q := by
    rintro rfl
    rw [hp] at hq
    exact Plan.noConfusion hq
  obtain ⟨rg1, hb1⟩ := buildIndexRange_condsAfter rb ⟨x.Conditions, [], some q⟩ s
  have hb2 := buildIndexRange_twice rb _ _ _ _ hb1
  -- first run
  have hE1 : Enter rb ⟨[], [], none⟩ h p = some ⟨p, false, ⟨x.Conditions, [], none⟩, h⟩ := by
    simp [Enter, hp]
  have hEq : Enter rb ⟨x.Conditions, [], none⟩ h q =
      some ⟨q, false, ⟨condsAfter rb s.Index x.Conditions, [], some q⟩,
        Function.update h q (.IndexScan { s with Ranges := rg1 })⟩ := by
    simp [Enter, hq, hb1]
  have hLq : Leave rb ⟨condsAfter rb s.Index x.Conditions, [], some q⟩
      (Function.update h q (.IndexScan { s with Ranges := rg1 })) q =
      some ⟨q, true, ⟨condsAfter rb s.Index x.Conditions, [], some q⟩,
        Function.update h q (.IndexScan { s with Ranges := rg1 })⟩ := by
    simp [Leave, hb2]
  have hK1 : Accept rb (.cons q .nil .nil) ⟨x.Conditions, [], none⟩ h =
      some (⟨condsAfter rb s.Index x.Conditions, [], some q⟩,
        Function.update h q (.IndexScan { s with Ranges := rg1 })) := by
    rw [Accept_cons_of rb hEq rfl (Accept_nil rb _ _) hLq]
    exact Accept_nil rb _ _
  have hLp : Leave rb ⟨condsAfter rb s.Index x.Conditions, [], some q⟩
      (Function.update h q (.IndexScan { s with Ranges := rg1 })) p =
      some ⟨p, true, ⟨condsAfter rb s.Index x.Conditions, [], some q⟩,
        Function.update (Function.update h q (.IndexScan { s with Ranges := rg1 })) p
          (.Filter ⟨condsAfter rb s.Index x.Conditions⟩)⟩ := by
    simp [Leave, Function.update_noteq hpq, hp]
  refine ⟨Function.update (Function.update h q (.IndexScan { s with Ranges := rg1 })) p
    (.Filter ⟨condsAfter rb s.Index x.Conditions⟩), ?_, ?_⟩
  · unfold refine
    rw [Accept_cons_of rb hE1 rfl hK1 hLp, Accept_nil]
  · -- second run
    generalize hh1 : Function.update (Function.update h q
      (.IndexScan { s with Ranges := rg1 })) p
      (.Filter ⟨condsAfter rb s.Index x.Conditions⟩) = h1
    have h1p : h1 p = .Filter ⟨condsAfter rb s.Index x.Conditions⟩ := by
      rw [← hh1]
      simp
    have h1q : h1 q = .IndexScan { s with Ranges := rg1 } := by
      rw [← hh1]
      simp [Function.update_noteq hpq.symm]
    have hE2 : Enter rb ⟨[], [], none⟩ h1 p =
        some ⟨p, false, ⟨condsAfter rb s.Index x.Conditions, [], none⟩, h1⟩ := by
      simp [Enter, h1p]
    have hK2 := Accept_scan_leaf_fixed rb ⟨condsAfter rb s.Index x.Conditions, [], none⟩
      h1 q _ h1q hb2
    have hu : Function.update h1 p (.Filter ⟨condsAfter rb s.Index x.Conditions⟩) = h1 := by
      rw [← h1p]
      exact Function.update_eq_self p h1
    have hL2 : Leave rb ⟨condsAfter rb s.Index x.Conditions, [], some q⟩ h1 p =
        some ⟨p, true, ⟨condsAfter rb s.Index x.Conditions, [], some q⟩, h1⟩ := by
      simp [Leave, h1p, hu]
    unfold refine
    rw [Accept_cons_of rb hE2 rfl hK2 hL2, Accept_nil]

/-- C15: a second run of `buildIndexRange` on the refiner state and the scan a
first run left changes neither the ranges nor the active conditions; refining
a second time a `Filter` over an index scan changes nothing at all; and
refining a second time any plan tree with distinct nodes changes no node that
is not an index scan, so no `Filter.Conditions` and no `Sort.Bypass`. -/
theorem refine_idempotent (rb : rangeBuilder) :
    (∀ r p r1 p1, buildIndexRange rb r p = some (r1, p1) →
      buildIndexRange rb r1 p1 = some (r1, p1)) ∧
    (∀ h p q x s, h p = .Filter x → h q = .IndexScan s →
      ∃ h1, refine rb h p (.cons q .nil .nil) = some h1 ∧
        refine rb h1 p (.cons q .nil .nil) = some h1) ∧
    (∀ h p children, (Forest.cons p children .nil).ptrs.Nodup →
      ∃ h1 h2, refine rb h p children = some h1 ∧ refine rb h1 p children = some h2 ∧
        ∀ q, ((∀ s, h1 q ≠ .IndexScan s) → h2 q = h1 q) ∧
          (∀ x, h1 q = .Filter x → h2 q = .Filter x) ∧
          (∀ x, h1 q = .SortNode x → h2 q = .SortNode x)) := by
  refine ⟨fun r p r1 p1 h => buildIndexRange_twice rb r r1 p p1 h,
    fun h p q x s hp hq => refine_filter_scan_twice rb h p q x s hp hq, ?_⟩
  intro h p children hnd
  obtain ⟨r1, h1, hA, hsh1, -, -⟩ :=
    Accept_fun rb (fun q => (h q).shape) (.cons p children .nil) ⟨[], [], none⟩ h
      (fun _ => rfl)
  obtain ⟨r2, h2, hA2, -, -, hfr, -⟩ :=
    Accept_second rb (fun q => (h q).shape) (.cons p children .nil) ⟨[], [], none⟩
      ⟨[], [], none⟩ h h1 r1 h1 (fun _ => rfl) hsh1 hnd hA rfl (fun _ _ _ => rfl)
  have hgen : ∀ q, (∀ s, h1 q ≠ .IndexScan s) → h2 q = h1 q := by
    intro q hq
    apply hfr q
    intro idx hidx
    have := hsh1 q
    rw [hidx] at this
    obtain ⟨s, hs, -⟩ := shape_eq_scan this
    exact hq s hs
  refine ⟨h1, h2, by simp [refine, hA], by simp [refine, hA2], fun q => ⟨hgen q, ?_, ?_⟩⟩
  · intro x hx
    rw [hgen q (fun s hs => by rw [hx] at hs; exact Plan.noConfusion hs), hx]
  · intro x hx
    rw [hgen q (fun s hs => by rw [hx] at hs; exact Plan.noConfusion hs), hx]

/-! ## The ranges hold what the conditions lose -/

theorem mem_pushed {idx : IndexInfo} {i : Nat} {conds : List ExprNode} {c : ExprNode} :
    c ∈ pushed idx i conds ↔ c ∈ conds ∧ check idx i c = some true := by
  simp [pushed, List.mem_filter]

/-- With a lawful range builder the fold of the range points of pushable
conditions from a sequence is a sequence. -/
theorem foldPoints_some (rb : rangeBuilder) (hrb : rb.Lawful) (idx : IndexInfo) (i : Nat) :
    ∀ (cs : List ExprNode), (∀ c ∈ cs, check idx i c = some true) →
      ∀ a, ∃ v, foldPoints rb cs (some a) = some v
  | [], _, a => ⟨a, rfl⟩
  | c :: rest, hcs, a => by
    have hb : rb.build c ≠ none := hrb.2.1 idx i c (hcs c (List.mem_cons_self _ _))
    obtain ⟨b, hb2⟩ := Option.ne_none_iff_exists'.mp hb
    have hi : rb.intersection (some a) (some b) ≠ none := hrb.2.2 a b
    obtain ⟨w, hw⟩ := Option.ne_none_iff_exists'.mp hi
    obtain ⟨v, hv⟩ := foldPoints_some rb hrb idx i rest
      (fun d hd => hcs d (List.mem_cons_of_mem _ hd)) w
    exact ⟨v, by simp only [foldPoints, List.foldl_cons, hb2, hw] at hv ⊢; exact hv⟩

/-- With a lawful range builder the range points folded from a non-empty list
of pushable conditions are a sequence, and those of a single condition are
what `build` gives for it. -/
theorem foldPoints_pushed (rb : rangeBuilder) (hrb : rb.Lawful) (idx : IndexInfo) (i : Nat)
    (conds : List ExprNode) (hne : pushed idx i conds ≠ []) :
    ∃ v, foldPoints rb (pushed idx i conds) none = some v ∧
      ∀ c, pushed idx i conds = [c] → rb.build c = some v := by
  have hall : ∀ c ∈ pushed idx i conds, check idx i c = some true :=
    fun c hc => (mem_pushed.mp hc).2
  cases hp : pushed idx i conds with
  | nil => exact absurd hp hne
  | cons c rest =>
    rw [hp] at hall
    have hb : rb.build c ≠ none := hrb.2.1 idx i c (hall c (List.mem_cons_self _ _))
    obtain ⟨b, hb2⟩ := Option.ne_none_iff_exists'.mp hb
    obtain ⟨v, hv⟩ := foldPoints_some rb hrb idx i rest
      (fun d hd => hall d (List.mem_cons_of_mem _ hd)) b
    have hstart : foldPoints rb (c :: rest) none = foldPoints rb rest (some b) := by
      simp only [foldPoints, List.foldl_cons, hrb.1, hb2]
    refine ⟨v, by rw [hstart, hv], ?_⟩
    intro d hd
    simp only [List.cons.injEq] at hd
    obtain ⟨rfl, rfl⟩ := hd
    rw [hb2]
    exact hv

theorem rbEq_lawful : rbEq.Lawful := by
  refine ⟨fun x => rfl, ?_, fun a b => by simp [rbEq]⟩
  intro idx i c _
  simp only [rbEq]
  split <;> simp

/-- C18: with a range builder as the spec describes it, at every iteration
the column loop runs with at least one pushable active condition the range
points, `intersection` folded from nil over `build` of exactly the pushable
conditions, are a sequence; the ranges are reassigned from it
(`buildIndexRanges` at column 0, `appendIndexRanges` after it) and the loop
goes on, or ends after the last column, with that assignment, so no
condition leaves the list while the ranges stay; with a single pushable
condition `c` at column 0 the ranges assigned are
`buildIndexRanges (build c)`. -/
theorem buildIndexRange_folds_pushed (rb : rangeBuilder) (hrb : rb.Lawful)
    (r : refiner) (p : IndexScan)
    (e : Nat × List ExprNode × Option (List IndexRange))
    (he : e ∈ processed rb r p) (hne : pushed p.Index e.1 e.2.1 ≠ []) :
    ∃ v, foldPoints rb (pushed p.Index e.1 e.2.1) none = some v ∧
      (e.1 + 1 < p.Index.Columns.length →
        (e.1 + 1, leftover p.Index e.1 e.2.1, reassigned rb e.1 e.2.2 v) ∈
          processed rb r p) ∧
      (e.1 + 1 = p.Index.Columns.length →
        buildIndexRange rb r p =
          some ({ r with conditions := leftover p.Index e.1 e.2.1 },
                { p with Ranges := reassigned rb e.1 e.2.2 v })) ∧
      (e.1 = 0 → reassigned rb e.1 e.2.2 v = rb.buildIndexRanges (some v)) ∧
      (0 < e.1 → reassigned rb e.1 e.2.2 v = rb.appendIndexRanges e.2.2 (some v)) ∧
      (∀ c, pushed p.Index e.1 e.2.1 = [c] → e.1 = 0 →
        reassigned rb e.1 e.2.2 v = rb.buildIndexRanges (rb.build c)) := by
  obtain ⟨v, hv, hone⟩ := foldPoints_pushed rb hrb p.Index e.1 e.2.1 hne
  obtain ⟨-, h2⟩ := columnTrace_step rb p.Index p.Index.Columns.length 0 r.conditions
    p.Ranges (by omega) e he
  obtain ⟨h3, h4⟩ := h2 v hv
  refine ⟨v, hv, fun hlt => h3 (by omega), fun heq => ?_, fun h0 => ?_, fun hpos => ?_,
    fun c hc h0 => ?_⟩
  · have := h4 (by omega)
    simp [buildIndexRange, this]
  · simp [reassigned, h0]
  · have : e.1 ≠ 0 := by omega
    simp [reassigned, this]
  · rw [hone c hc]
    simp [reassigned, h0]

/-- Witness of C18: on the index on `(x)` the single pushable condition
`x = 1` leaves the list and the ranges become `buildIndexRanges (build (x = 1))`;
and `x = 1`, `x = 2` both leave the list and the ranges become the empty
sequence of their intersection. -/
theorem buildIndexRange_folds_pushed_witness :
    buildIndexRange rbEq ⟨[colEq "x" 1], [], none⟩ scanX =
      some (⟨[], [], none⟩,
        ⟨idxX, rbEq.buildIndexRanges (rbEq.build (colEq "x" 1)), false⟩) ∧
    buildIndexRange rbEq ⟨[colEq "x" 1, colEq "x" 2], [], none⟩ scanX =
      some (⟨[], [], none⟩, ⟨idxX, some [], false⟩) := by
  obtain ⟨v, -, -, h2, -, -, h5⟩ := buildIndexRange_folds_pushed rbEq rbEq_lawful
    ⟨[colEq "x" 1], [], none⟩ scanX (0, [colEq "x" 1], none) (List.mem_cons_self _ _)
    (fun h => absurd ((rfl : [colEq "x" 1] = pushed idxX 0 [colEq "x" 1]).trans h)
      (List.cons_ne_nil _ _))
  refine ⟨?_, by rfl⟩
  rw [h2 rfl, h5 (colEq "x" 1) rfl rfl]
  rfl

/-! ## Which scan a sort is checked against -/

theorem leaveTrace_cons_of (rb : rangeBuilder) {p : Ptr} {k rest : Forest}
    {r r1 : refiner} {h h1 : Heap} {v w : Visited} (hv : Enter rb r h p = some v)
    (hf : v.flag = false) (hk : Accept rb k v.r v.heap = some (r1, h1))
    (hw : Leave rb r1 h1 v.out = some w) :
    leaveTrace rb (.cons p k rest) r h =
      leaveTrace rb k v.r v.heap ++ (v.out, r1, h1) :: leaveTrace rb rest w.r w.heap := by
  simp [leaveTrace, hv, hf, hk, hw]

theorem lastScan_cons (sh : Ptr → Shape) (init : Option Ptr) (q : Ptr) (qs : List Ptr) :
    lastScan sh init (q :: qs) = lastScan sh (enterScan (sh q) q init) qs := rfl

theorem lastScan_append (sh : Ptr → Shape) (init : Option Ptr) (qs qs2 : List Ptr) :
    lastScan sh init (qs ++ qs2) = lastScan sh (lastScan sh init qs) qs2 := by
  simp [lastScan, List.foldl_append]

/-- The scan `lastScan` gives is `init` or an index scan of the list. -/
theorem lastScan_eq_some (sh : Ptr → Shape) :
    ∀ (qs : List Ptr) (init : Option Ptr) (q : Ptr), lastScan sh init qs = some q →
      init = some q ∨ (q ∈ qs ∧ ∃ idx, sh q = .scan idx)
  | [], init, q, h => Or.inl h
  | a :: rest, init, q, h => by
    rw [lastScan_cons] at h
    rcases lastScan_eq_some sh rest _ q h with h1 | ⟨h1, h2⟩
    · cases hs : sh a with
      | scan idx =>
        rw [hs] at h1
        simp only [enterScan, Option.some.injEq] at h1
        subst h1
        exact Or.inr ⟨List.mem_cons_self _ _, idx, hs⟩
      | filter =>
        rw [hs] at h1
        exact Or.inl h1
      | other =>
        rw [hs] at h1
        exact Or.inl h1
    · exact Or.inr ⟨List.mem_cons_of_mem _ h1, h2⟩

/-- After the traversal of a forest the recorded scan is the index scan of
the forest entered last, or the one recorded before when the forest has
none: `Enter` records, nothing clears. -/
theorem Accept_recorded (rb : rangeBuilder) (sh : Ptr → Shape) :
    ∀ (t : Forest) (r : refiner) (h : Heap), Shaped sh h →
      ∀ r1 h1, Accept rb t r h = some (r1, h1) →
        r1.indexScan = lastScan sh r.indexScan t.ptrs
  | .nil, r, h, _, r1, h1, hA => by
    rw [Accept_nil] at hA
    cases hA
    rfl
  | .cons p k rest, r, h, hs, r1, h1, hA => by
    obtain ⟨v, hv, hout, hflag, hsh1, -, hi1, -, -⟩ := Enter_fun rb sh r h p hs
    obtain ⟨r2, h2, hA2, hsh2, -, -⟩ := Accept_fun rb sh k v.r v.heap hsh1
    obtain ⟨w, hw, hsh3, -, hi3, -, -⟩ := Leave_fun rb sh r2 h2 p hsh2
    rw [Accept_cons_of rb hv hflag hA2 (by rw [hout]; exact hw)] at hA
    rw [Accept_recorded rb sh rest w.r w.heap hsh3 r1 h1 hA, hi3,
      Accept_recorded rb sh k v.r v.heap hsh1 r2 h2 hA2, hi1]
    simp only [Forest.ptrs, lastScan_cons, lastScan_append]

theorem Forest.fst_mem_ptrs_of_mem_visits :
    ∀ (t : Forest) (e : Ptr × Forest × List Ptr), e ∈ t.visits → e.1 ∈ t.ptrs
  | .nil, _, h => by simp [Forest.visits] at h
  | .cons p k rest, e, h => by
    simp only [Forest.visits, List.mem_cons, List.mem_append, List.mem_map] at h
    simp only [Forest.ptrs, List.mem_cons, List.mem_append]
    rcases h with h | ⟨e2, h, rfl⟩ | ⟨e2, h, rfl⟩
    · subst h
      exact Or.inl rfl
    · exact Or.inr (Or.inl (Forest.fst_mem_ptrs_of_mem_visits k e2 h))
    · exact Or.inr (Or.inr (Forest.fst_mem_ptrs_of_mem_visits rest e2 h))

/-- In the traversal of a forest with distinct nodes `Leave` is called on
every node; at that call the recorded scan is the index scan entered last
among the nodes entered so far, or the one recorded before the forest when
there is none, and a node that is no index scan is still as it was. -/
theorem leaveTrace_spec (rb : rangeBuilder) (sh : Ptr → Shape) :
    ∀ (t : Forest) (r : refiner) (h : Heap), Shaped sh h → t.ptrs.Nodup →
      ∀ e ∈ t.visits, ∃ r1 h1, (e.1, r1, h1) ∈ leaveTrace rb t r h ∧ Shaped sh h1 ∧
        r1.indexScan = lastScan sh r.indexScan (e.2.2 ++ e.1 :: e.2.1.ptrs) ∧
        (NonScan sh e.1 → h1 e.1 = h e.1)
  | .nil, _, _, _, _, e, he => by simp [Forest.visits] at he
  | .cons p k rest, r, h, hs, hnd, e, he => by
    obtain ⟨v, hv, hout, hflag, hsh1, hfr1, hi1, -, -⟩ := Enter_fun rb sh r h p hs
    obtain ⟨r2, h2, hA2, hsh2, hfr2, -⟩ := Accept_fun rb sh k v.r v.heap hsh1
    obtain ⟨w, hw, hsh3, hfr3, hi3, -, -⟩ := Leave_fun rb sh r2 h2 p hsh2
    have hr2 := Accept_recorded rb sh k v.r v.heap hsh1 r2 h2 hA2
    simp only [Forest.ptrs, List.nodup_cons, List.mem_append, not_or,
      List.nodup_append] at hnd
    obtain ⟨⟨hpk, hpr⟩, hndk, hndr, hdisj⟩ := hnd
    rw [leaveTrace_cons_of rb hv hflag hA2 (by rw [hout]; exact hw), hout]
    simp only [Forest.visits, List.mem_cons, List.mem_append, List.mem_map] at he
    rcases he with he | ⟨e2, he, rfl⟩ | ⟨e2, he, rfl⟩
    · subst he
      refine ⟨r2, h2, by simp, hsh2, ?_, ?_⟩
      · rw [hr2, hi1]
        simp [lastScan_cons]
      · intro hns
        rw [hfr2 p hns hpk, hfr1 p hns]
    · obtain ⟨r1, h1, hmem, hsh, hrec, hkeep⟩ :=
        leaveTrace_spec rb sh k v.r v.heap hsh1 hndk e2 he
      refine ⟨r1, h1, by simp [hmem], hsh, ?_, ?_⟩
      · rw [hrec, hi1]
        simp [lastScan_cons]
      · intro hns
        rw [hkeep hns, hfr1 _ hns]
    · obtain ⟨r1, h1, hmem, hsh, hrec, hkeep⟩ :=
        leaveTrace_spec rb sh rest w.r w.heap hsh3 hndr e2 he
      have hm := Forest.fst_mem_ptrs_of_mem_visits rest e2 he
      have hne : e2.1 ≠ p := by
        rintro heq
        rw [heq] at hm
        exact hpr hm
      have hnk : e2.1 ∉ k.ptrs := fun hk => hdisj hk hm
      refine ⟨r1, h1, by simp [hmem], hsh, ?_, ?_⟩
      · rw [hrec, hi3, hr2, hi1]
        simp [lastScan_cons, lastScan_append]
      · intro hns
        rw [hkeep hns, hfr3 _ hne hns, hfr2 _ hns hnk, hfr1 _ hns]

/-- C19 as amended: the sort bypass uses the index scan entered last in the
traversal so far, inside the sort's subtree or not. In the refinement of a
plan tree with distinct nodes `Leave` is called on every sort node with the
node as it was; the scan recorded at that call is the index scan entered last
among all nodes entered so far, never cleared; when no index scan has been
entered so far the call changes nothing; otherwise it writes what `sortBypass`
makes of that scan and of the sort node, and nothing else. -/
theorem Leave_sort_uses_last_entered_scan (rb : rangeBuilder) (h : Heap) (p0 : Ptr)
    (children : Forest) (hnd : (Forest.cons p0 children .nil).ptrs.Nodup) :
    ∀ e ∈ (Forest.cons p0 children .nil).visits, ∀ x, h e.1 = .SortNode x →
      ∃ r1 h1,
        (e.1, r1, h1) ∈ leaveTrace rb (.cons p0 children .nil) ⟨[], [], none⟩ h ∧
        r1.indexScan =
          lastScan (fun q => (h q).shape) none (e.2.2 ++ e.1 :: e.2.1.ptrs) ∧
        h1 e.1 = .SortNode x ∧
        (r1.indexScan = none → Leave rb r1 h1 e.1 = some ⟨e.1, true, r1, h1⟩) ∧
        (∀ q, r1.indexScan = some q →
          q ∈ e.2.2 ++ e.1 :: e.2.1.ptrs ∧
          ∃ s s1 x1, h1 q = .IndexScan s ∧ (h q).shape = .scan s.Index ∧
            sortBypass (some s) x = some (some s1, x1) ∧
            Leave rb r1 h1 e.1 = some ⟨e.1, true, r1,
              Function.update (Function.update h1 q (.IndexScan s1)) e.1
                (.SortNode x1)⟩) := by
  intro e he x hx
  obtain ⟨r1, h1, hmem, hsh, hrec, hkeep⟩ :=
    leaveTrace_spec rb (fun q => (h q).shape) (.cons p0 children .nil) ⟨[], [], none⟩ h
      (fun _ => rfl) hnd e he
  have hns : NonScan (fun q => (h q).shape) e.1 := by
    intro idx hidx
    simp only [hx, Plan.shape] at hidx
    exact Shape.noConfusion hidx
  have hp1 : h1 e.1 = .SortNode x := by rw [hkeep hns, hx]
  refine ⟨r1, h1, hmem, hrec, hp1, fun hr => Leave_sort_no_scan rb r1 h1 e.1 x hp1 hr, ?_⟩
  intro q hq
  rw [hrec] at hq
  rcases lastScan_eq_some _ _ _ q hq with h0 | ⟨hqm, idx, hidx⟩
  · exact Option.noConfusion h0
  · have hq1 := hsh q
    simp only at hq1 hidx
    rw [hidx] at hq1
    obtain ⟨s, hs, hsi⟩ := shape_eq_scan hq1
    obtain ⟨s1, x1, hsb, -⟩ := sortBypass_some_index s x
    refine ⟨hqm, s, s1, x1, hs, by rw [hidx, hsi], hsb, ?_⟩
    have hr : r1.indexScan = some q := by rw [hrec, hq]
    simp [Leave, hp1, hr, deref, hs, hsb, writeSort]

/-- Witness of C19 as amended: under a node with two children, a scan of the
index on `(a, b)` and then the sort `ORDER BY a DESC` over a source that is no
index scan, the scan recorded when the sort is left is the scan of the other
branch, node 1. -/
theorem Leave_sort_uses_last_entered_scan_witness :
    (∀ e ∈ (Forest.cons 0 (.cons 1 .nil (.cons 2 (.cons 3 .nil .nil) .nil)) .nil).visits,
      ∀ x, heapSibling e.1 = .SortNode x →
      ∃ r1 h1,
        (e.1, r1, h1) ∈ leaveTrace rbDemo
          (.cons 0 (.cons 1 .nil (.cons 2 (.cons 3 .nil .nil) .nil)) .nil)
          ⟨[], [], none⟩ heapSibling ∧
        r1.indexScan =
          lastScan (fun q => (heapSibling q).shape) none (e.2.2 ++ e.1 :: e.2.1.ptrs) ∧
        h1 e.1 = .SortNode x ∧
        (r1.indexScan = none → Leave rbDemo r1 h1 e.1 = some ⟨e.1, true, r1, h1⟩) ∧
        (∀ q, r1.indexScan = some q →
          q ∈ e.2.2 ++ e.1 :: e.2.1.ptrs ∧
          ∃ s s1 x1, h1 q = .IndexScan s ∧ (heapSibling q).shape = .scan s.Index ∧
            sortBypass (some s) x = some (some s1, x1) ∧
            Leave rbDemo r1 h1 e.1 = some ⟨e.1, true, r1,
              Function.update (Function.update h1 q (.IndexScan s1)) e.1
                (.SortNode x1)⟩)) ∧
    (2, Forest.cons 3 .nil .nil, [0, 1]) ∈
      (Forest.cons 0 (.cons 1 .nil (.cons 2 (.cons 3 .nil .nil) .nil)) .nil).visits ∧
    lastScan (fun q => (heapSibling q).shape) none ([0, 1] ++ 2 :: [3]) = some 1 :=
  ⟨Leave_sort_uses_last_entered_scan rbDemo heapSibling 0
      (.cons 1 .nil (.cons 2 (.cons 3 .nil .nil) .nil)) (by simp [Forest.ptrs]),
    by simp [Forest.visits, Forest.ptrs], rfl⟩

end Refiner
